import Mathlib

/-!
# Verification of the chat-gui streaming chat pipeline

Shallow embedding of the core streaming pipeline of the `chat-gui`
repository:

* the incremental JSON frame scanner used by the Gemini-style adapter
  (`src/lib/ai-providers.ts`, `GeminiAPI.chatStream`),
* the two provider adapters' `chatStream` relays and the provider
  manager (`src/lib/ai-providers.ts`),
* the stream orchestrator of `src/app/api/chat/stream/route.ts`
  (relay loop, verification, persistence, usage accounting),
* the fixed-window rate limiter (`src/lib/rate-limit.ts`).

Text is modelled as `List Char`; JavaScript machine integers that can
only hold small counters are modelled as `Nat`/`Int`; money amounts are
modelled as `ℚ` (the JS code computes with IEEE doubles, but every claim
under study is about the symbolic formula, not rounding).  Upstream
collaborators (`fetch`, `JSON.parse`) are modelled as explicit inputs
and parameter functions.
-/

/-! ## Normalized stream events (`StreamChunk` of `src/lib/ai-providers.ts`) -/

/-- The `type` tag of a `StreamChunk` (`'content' | 'done' | 'error' | 'start'`). -/
inductive EvType where
  | start
  | content
  | done
  | error
deriving DecidableEq, Repr

/-- A normalized stream event, mirroring the `StreamChunk` interface: optional
`content`, `delta` and `error` fields next to the mandatory `type` tag. -/
structure StreamChunk where
  type : EvType
  content : Option (List Char) := none
  delta : Option (List Char) := none
  error : Option (List Char) := none
deriving DecidableEq, Repr

/-- `yield { type: 'content', delta }`. -/
def contentEv (d : List Char) : StreamChunk := { type := .content, delta := some d }

/-- `yield { type: 'done' }`. -/
def doneEv : StreamChunk := { type := .done }

/-- `yield { type: 'error', error }`. -/
def errEv (m : List Char) : StreamChunk := { type := .error, error := some m }

/-! ## The incremental frame parser

`GeminiAPI.chatStream` scans its buffer character by character keeping a
brace counter (`braceCount`), an in-string flag (`inString`) and an
escape flag (`escaped`); when the brace counter returns to zero at a
closing brace it extracts `buffer.slice(startIndex, i + 1)` as a
complete frame, drops the consumed prefix of the buffer and restarts the
scan.  We model one scan pass as a left fold of `scanStep` over the
buffer; `seenRev` holds (reversed) every character consumed since the
last extraction — so `seenRev.reverse` is exactly the buffer that
remains after the pass — and `curRev` holds the characters since
`startIndex`. -/

/-- State of the frame scanner. -/
structure ScanSt where
  depth : Int
  inString : Bool
  escaped : Bool
  seenRev : List Char
  curRev : List Char
deriving Repr, DecidableEq

/-- Scanner state at the start of a pass (and just after an extraction). -/
def scanInit : ScanSt := ⟨0, false, false, [], []⟩

/-- One character of the scan loop of `GeminiAPI.chatStream`
(`src/lib/ai-providers.ts` lines 269–364): the next state, plus the complete
frame handed to `JSON.parse` when the brace count returns to zero. -/
def scanStep (st : ScanSt) (c : Char) : ScanSt × Option (List Char) :=
  if st.escaped then
    ({ st with
        escaped := false
        seenRev := c :: st.seenRev
        curRev := c :: st.curRev }, none)
  else if c = '\\' ∧ st.inString then
    ({ st with
        escaped := true
        seenRev := c :: st.seenRev
        curRev := c :: st.curRev }, none)
  else if c = '"' then
    ({ st with
        inString := !st.inString
        seenRev := c :: st.seenRev
        curRev := c :: st.curRev }, none)
  else if ¬st.inString ∧ c = '{' then
    if st.depth = 0 then
      -- `startIndex = i`: the current frame candidate starts here
      ({ st with
          depth := st.depth + 1
          seenRev := c :: st.seenRev
          curRev := [c] }, none)
    else
      ({ st with
          depth := st.depth + 1
          seenRev := c :: st.seenRev
          curRev := c :: st.curRev }, none)
  else if ¬st.inString ∧ c = '}' then
    if st.depth - 1 = 0 then
      -- complete frame: emit `buffer.slice(startIndex, i + 1)` and drop the
      -- consumed bytes from the buffer (`buffer = buffer.slice(i + 1)`)
      ({ depth := 0, inString := st.inString, escaped := st.escaped,
         seenRev := [], curRev := [] }, some ((c :: st.curRev).reverse))
    else
      ({ st with
          depth := st.depth - 1
          seenRev := c :: st.seenRev
          curRev := c :: st.curRev }, none)
  else
    ({ st with seenRev := c :: st.seenRev, curRev := c :: st.curRev }, none)

/-- Run one scan pass over a buffer: final state plus the complete frames
recovered, in order. -/
def scanPass (st : ScanSt) : List Char → ScanSt × List (List Char)
  | [] => (st, [])
  | c :: cs =>
    let r := scanStep st c
    let r2 := scanPass r.1 cs
    (r2.1, r.2.toList ++ r2.2)

/-- One scan pass from the initial state: the complete frames recovered from
the buffer, in order, and the buffer that remains afterwards. -/
def scanBuffer (buf : List Char) : List (List Char) × List Char :=
  let r := scanPass scanInit buf
  (r.2, r.1.seenRev.reverse)

/-- Process a sequence of reads the way `GeminiAPI.chatStream` does: append
each read to the leftover buffer, rescan from scratch, collect the recovered
frames. -/
def processChunks (chunks : List (List Char)) : List (List Char) × List Char :=
  chunks.foldl
    (fun acc ch =>
      let p := scanBuffer (acc.2 ++ ch)
      (acc.1 ++ p.1, p.2))
    ([], [])

/-! ## Small text helpers (JavaScript string operations) -/

/-- `s.split(sep)` for a single-character separator, as JavaScript computes it:
`"".split(c) = [""]`, separators at the ends produce empty fields. -/
def splitOnChar (sep : Char) : List Char → List (List Char)
  | [] => [[]]
  | c :: rest =>
    let r := splitOnChar sep rest
    if c = sep then [] :: r
    else
      match r with
      | [] => [[c]]
      | x :: xs => (c :: x) :: xs

/-- Whitespace for the purposes of `String.prototype.trim` (ASCII part). -/
def isJsWhitespace (c : Char) : Bool :=
  c = ' ' ∨ c = '\t' ∨ c = '\n' ∨ c = '\r' ∨ c = '\x0b' ∨ c = '\x0c'

/-- `s.trim()`. -/
def jsTrim (s : List Char) : List Char :=
  ((s.dropWhile isJsWhitespace).reverse.dropWhile isJsWhitespace).reverse

/-! ## The upstream input model

A provider adapter's `chatStream` talks to `fetch`: the call can fail
synchronously (network error, non-OK status, missing body) — modelled by
`UpInput.setupFail` carrying the error message the adapter would throw —
or it produces a sequence of decoded reads followed by either a clean
end of stream or a mid-stream read failure (`readFail`). -/

/-- What the upstream HTTP call delivers to an adapter. -/
inductive UpInput where
  | setupFail (msg : List Char)
  | stream (chunks : List (List Char)) (readFail : Option (List Char))

/-! ## OpenRouter-style adapter (`OpenRouterAPI.chatStream`)

The SSE parsing is embedded literally: split the buffer on newlines, keep
the trailing partial line, recognize `data: ` lines, stop at the
`[DONE]` sentinel, otherwise extract `choices[0].delta.content` from the
parsed JSON.  The JSON parsing plus field extraction is abstracted as a
parameter `pdelta : List Char → Option (List Char)` (`none` covers both
a JSON parse failure and an absent field); the adapter's own truthiness
guard `if (delta)` is kept explicit. -/

/-- Process the complete lines of one read
(`OpenRouterAPI.chatStream` lines 110–132).  Returns the events yielded
and whether the generator returned (saw `data: [DONE]`). -/
def orLines (pdelta : List Char → Option (List Char)) :
    List (List Char) → List StreamChunk × Bool
  | [] => ([], false)
  | l :: ls =>
    if "data: ".toList.isPrefixOf l then
      let data := jsTrim (l.drop 6)
      if data = "[DONE]".toList then ([doneEv], true)
      else
        match pdelta data with
        | some d =>
          if d = [] then orLines pdelta ls
          else
            let r := orLines pdelta ls
            (contentEv d :: r.1, r.2)
        | none => orLines pdelta ls
    else orLines pdelta ls

/-- The read loop of `OpenRouterAPI.chatStream` (lines 101–133): per read,
append to the buffer, split on `'\n'`, keep the last part as the new buffer,
process the complete lines. -/
def orChunks (pdelta : List Char → Option (List Char)) (buffer : List Char) :
    List (List Char) → List StreamChunk × Bool
  | [] => ([], false)
  | ch :: rest =>
    let parts := splitOnChar '\n' (buffer ++ ch)
    let r := orLines pdelta parts.dropLast
    if r.2 then (r.1, true)
    else
      let r2 := orChunks pdelta (parts.getLastD []) rest
      (r.1 ++ r2.1, r2.2)

/-- `OpenRouterAPI.chatStream` (lines 71–146): the full normalized event
sequence produced for one upstream interaction. -/
def openRouterChatStream (pdelta : List Char → Option (List Char)) :
    UpInput → List StreamChunk
  | .setupFail msg => [errEv msg]
  | .stream chunks readFail =>
    let r := orChunks pdelta [] chunks
    if r.2 then r.1
    else
      match readFail with
      | none => r.1 ++ [doneEv]
      | some msg => r.1 ++ [errEv msg]

/-! ## Gemini-style adapter (`GeminiAPI.chatStream`)

Frames recovered by the scanner are handed to `JSON.parse` and the code
then branches on `parsed.candidates?.[0]?.content?.parts?.[0]?.text` and
`parsed.candidates?.[0]?.finishReason`.  The parse plus those two
optional-chain extractions are abstracted as a parameter
`gparse : List Char → Option GeminiFrame` (`none` = `JSON.parse` threw);
all truthiness guards are kept explicit. -/

/-- The two fields of a parsed Gemini frame the adapter looks at. -/
structure GeminiFrame where
  text : Option (List Char)
  finishReason : Option (List Char)
deriving DecidableEq, Repr

/-- `words[i] + (i < words.length - 1 ? ' ' : '')` over the whole word list
(the simulated-streaming loop, lines 314–327): every word but the last gets
a trailing space re-attached. -/
def simulateWords : List (List Char) → List (List Char)
  | [] => []
  | [w] => [w]
  | w :: rest => (w ++ [' ']) :: simulateWords rest

/-- The incremental-delta handling of one frame (`if (delta) { ... }`,
lines 334–343): emit a `content` event when the extracted text is truthy,
and update `hasReceivedContent`. -/
def gDelta (hasRc : Bool) : Option (List Char) → List StreamChunk × Bool
  | some d => if d = [] then (([] : List StreamChunk), hasRc) else ([contentEv d], true)
  | none => ([], hasRc)

/-- Handle one recovered frame (`GeminiAPI.chatStream` lines 300–354).
Returns the events yielded, whether the generator returned, and the updated
`hasReceivedContent` flag. -/
def gFrame (gparse : List Char → Option GeminiFrame) (hasRc : Bool)
    (frame : List Char) : List StreamChunk × Bool × Bool :=
  match gparse frame with
  | none => ([], false, hasRc)  -- JSON.parse failed: skip this frame
  | some f =>
    if (f.text.getD [] ≠ []) ∧ f.finishReason = some "STOP".toList then
      -- complete, non-incremental response
      if hasRc then ([doneEv], true, hasRc)
      else
        let ws := simulateWords (splitOnChar ' ' (f.text.getD []))
        (ws.map contentEv ++ [doneEv], true, true)
    else
      -- incremental chunk: emit the delta if truthy ...
      let r := gDelta hasRc f.text
      -- ... then check the finish reason
      if f.finishReason = some "STOP".toList ∨ f.finishReason = some "MAX_TOKENS".toList then
        (r.1 ++ [doneEv], true, r.2)
      else (r.1, false, r.2)

/-- Handle the recovered frames of one scan pass in order, stopping as soon
as the generator returns. -/
def gFrames (gparse : List Char → Option GeminiFrame) (hasRc : Bool) :
    List (List Char) → List StreamChunk × Bool × Bool
  | [] => ([], false, hasRc)
  | fr :: frs =>
    let r := gFrame gparse hasRc fr
    if r.2.1 then (r.1, true, r.2.2)
    else
      let r2 := gFrames gparse r.2.2 frs
      (r.1 ++ r2.1, r2.2.1, r2.2.2)

/-- The read loop of `GeminiAPI.chatStream` (lines 256–365): per read, append
to the buffer, rescan, handle the recovered frames. -/
def gChunks (gparse : List Char → Option GeminiFrame) (buffer : List Char)
    (hasRc : Bool) : List (List Char) → List StreamChunk × Bool × Bool
  | [] => ([], false, hasRc)
  | ch :: rest =>
    let p := scanBuffer (buffer ++ ch)
    let r := gFrames gparse hasRc p.1
    if r.2.1 then (r.1, true, r.2.2)
    else
      let r2 := gChunks gparse p.2 r.2.2 rest
      (r.1 ++ r2.1, r2.2.1, r2.2.2)

/-- `GeminiAPI.chatStream` (lines 212–384): the full normalized event
sequence produced for one upstream interaction. -/
def geminiChatStream (gparse : List Char → Option GeminiFrame) :
    UpInput → List StreamChunk
  | .setupFail msg => [errEv msg]
  | .stream chunks readFail =>
    let r := gChunks gparse [] false chunks
    if r.2.1 then r.1
    else
      match readFail with
      | some msg => r.1 ++ [errEv msg]
      | none =>
        if r.2.2 then r.1 ++ [doneEv]
        else r.1 ++ [errEv "No content received from Gemini stream".toList]

/-! ## Provider manager (`AIProviderManager`) -/

/-- Provider names. -/
inductive PName where
  | openrouter
  | gemini
deriving DecidableEq, Repr

/-- Which adapters are configured (an API key being present in the
environment makes the constructor instantiate the adapter). -/
structure MgrCfg where
  hasOpenRouter : Bool
  hasGemini : Bool

/-- Adapter selection shared by `chat` and `chatStream` (lines 405–420 and
431–450): prefer the adapter matching the requested provider if
configured, else fall back to whichever adapter is configured, OpenRouter
first. -/
def selectAdapter (cfg : MgrCfg) (provider : PName) : Option PName :=
  if provider = .openrouter ∧ cfg.hasOpenRouter then some .openrouter
  else if provider = .gemini ∧ cfg.hasGemini then some .gemini
  else if cfg.hasOpenRouter then some .openrouter
  else if cfg.hasGemini then some .gemini
  else none

/-- The error thrown (and, on the stream path, re-emitted as an `error`
event) when no adapter is configured. -/
def noProviderMsg : List Char :=
  "No AI providers available. Please configure API keys.".toList

/-- `AIProviderManager.chat` (lines 400–423), with each adapter's outcome
supplied as an `Except`. -/
def managerChat (cfg : MgrCfg) (provider : PName)
    (orResult gmResult : Except (List Char) (List Char)) :
    Except (List Char) (List Char) :=
  match selectAdapter cfg provider with
  | some .openrouter => orResult
  | some .gemini => gmResult
  | none => .error noProviderMsg

/-- `AIProviderManager.chatStream` (lines 425–460): delegate to the selected
adapter; the surrounding `try`/`catch` turns the `NoProviderAvailable`
throw into a single terminal `error` event. -/
def managerChatStream (cfg : MgrCfg) (provider : PName)
    (pdelta : List Char → Option (List Char)) (orInput : UpInput)
    (gparse : List Char → Option GeminiFrame) (gmInput : UpInput) :
    List StreamChunk :=
  match selectAdapter cfg provider with
  | some .openrouter => openRouterChatStream pdelta orInput
  | some .gemini => geminiChatStream gparse gmInput
  | none => [errEv noProviderMsg]

/-! ## Rate limiter (`src/lib/rate-limit.ts`) -/

/-- One record of the in-memory store (per key). -/
structure RLRecord where
  count : Nat
  resetTime : Nat
deriving DecidableEq, Repr

/-- The value returned by `rateLimit`. -/
structure RLResult where
  success : Bool
  remaining : Nat
  resetTime : Nat
deriving DecidableEq, Repr

/-- `rateLimit(identifier, limit, windowMs)` acting on the store entry for
one key: result plus the entry after the call.  Timestamps are
milliseconds as `Nat`. -/
def rateLimit (st : Option RLRecord) (now limit windowMs : Nat) :
    RLResult × RLRecord :=
  -- clean up an expired entry
  let st1 : Option RLRecord :=
    match st with
    | some r => if now > r.resetTime then none else some r
    | none => none
  -- initialize a fresh window if there is no entry
  let cur := st1.getD ⟨0, now + windowMs⟩
  if cur.count ≥ limit then
    (⟨false, 0, cur.resetTime⟩, cur)
  else
    (⟨true, limit - (cur.count + 1), cur.resetTime⟩, ⟨cur.count + 1, cur.resetTime⟩)

/-- A sequence of calls for one key at the given call times. -/
def runCalls (limit windowMs : Nat) (st : Option RLRecord) :
    List Nat → List RLResult × Option RLRecord
  | [] => ([], st)
  | t :: ts =>
    let r := rateLimit st t limit windowMs
    let r2 := runCalls limit windowMs (some r.2) ts
    (r.1 :: r2.1, r2.2)

/-! ## Stream orchestrator (`src/app/api/chat/stream/route.ts`, `POST`)

We embed the request handler from the point where the request has been
validated and the conversation, model and user have been resolved: the
user-message write, the relay loop over the adapter's events, the
verification step and the persistence step.  The wire protocol written to
the SSE response and the database writes are reified as lists. -/

/-- Message roles (`ChatMessage.role`). -/
inductive MsgRole where
  | user
  | assistant
  | system
deriving DecidableEq, Repr

/-- A chat message as prepared for the AI call. -/
structure ChatMessage where
  role : MsgRole
  content : List Char
deriving DecidableEq, Repr

/-- The fields of the resolved `selectedModel` the handler reads. -/
structure ModelEntry where
  id : List Char
  modelName : List Char
  providerDisplayName : List Char
  inputPricePer1kTokens : ℚ
  outputPricePer1kTokens : ℚ
deriving DecidableEq

/-- The resolved per-request context the streaming part of `POST` runs in. -/
structure OrchInput where
  conversationId : List Char
  userId : List Char
  contextMessages : List ChatMessage
  userMessage : List Char
  model : ModelEntry
  adapterEvents : List StreamChunk

/-- The `usage` object of the final `done` wire event. -/
structure UsageInfo where
  inputTokens : Nat
  outputTokens : Nat
  totalTokens : Nat
  cost : ℚ
  model : List Char
  provider : List Char
deriving DecidableEq

/-- One SSE frame written to the client. -/
inductive Wire where
  | start (conversationId model provider : List Char)
  | content (delta content : List Char)
  | complete (totalTokens : Nat) (cost : ℚ)
  | done (conversationId : List Char) (usage : UsageInfo)
  | error (msg : List Char)
  | sentinel
deriving DecidableEq

/-- One database write issued by the handler. -/
inductive DbWrite where
  | userMessage (conversationId content : List Char)
  | assistantMessage (conversationId content : List Char)
      (inputTokens outputTokens tokens : Nat) (cost : ℚ) (modelId : List Char)
  | apiUsage (userId modelId : List Char)
      (inputTokens outputTokens totalTokens : Nat) (cost : ℚ)
  | touchConversation (conversationId : List Char)
deriving DecidableEq

/-- `Math.ceil(n / 4)` on a string length: the token estimator used when the
provider reports no counts. -/
def estimateTokens (n : Nat) : Nat := (n + 3) / 4

/-- `messages.map(m => m.content).join(' ')` where
`messages = [...conversation.messages, {role: 'user', content: message}]`. -/
def promptText (inp : OrchInput) : List Char :=
  List.intercalate [' '] ((inp.contextMessages.map (·.content)) ++ [inp.userMessage])

/-- The usage metrics computed on the `done` branch of the relay loop
(lines 218–225) from the accumulated content. -/
def usageOf (inp : OrchInput) (acc : List Char) : UsageInfo :=
  let inT := estimateTokens (promptText inp).length
  let outT := estimateTokens acc.length
  { inputTokens := inT
    outputTokens := outT
    totalTokens := inT + outT
    cost := (inT : ℚ) / 1000 * inp.model.inputPricePer1kTokens
      + (outT : ℚ) / 1000 * inp.model.outputPricePer1kTokens
    model := inp.model.modelName
    provider := inp.model.providerDisplayName }

/-- How the relay loop ended. -/
inductive RelayOutcome where
  | completed
  | errored (msg : List Char)
  | exhausted
deriving DecidableEq, Repr

/-- The relay loop (`for await (const chunk of streamGenerator)`, lines
190–254): wire frames written, final accumulated content, and how the loop
ended.  `content` events with a truthy `delta` are appended to the
accumulator and relayed; `done` computes the metrics, emits the `complete`
frame and breaks; `error` emits an `error` frame and throws; anything else
is ignored. -/
def relayLoop (inp : OrchInput) (acc : List Char) :
    List StreamChunk → List Wire × List Char × RelayOutcome
  | [] => ([], acc, .exhausted)
  | e :: rest =>
    if e.type = .content ∧ e.delta.getD [] ≠ [] then
      let d := e.delta.getD []
      let r := relayLoop inp (acc ++ d) rest
      (Wire.content d (acc ++ d) :: r.1, r.2)
    else if e.type = .done then
      let u := usageOf inp acc
      ([Wire.complete u.totalTokens u.cost], acc, .completed)
    else if e.type = .error then
      let msg := e.error.getD "Unknown streaming error".toList
      ([Wire.error msg], acc, .errored msg)
    else
      relayLoop inp acc rest

/-- The relay loop run on the request's adapter events. -/
def relayRes (inp : OrchInput) : List Wire × List Char × RelayOutcome :=
  relayLoop inp [] inp.adapterEvents

/-- The message of the error thrown when verification fails
(`Stream completion failed: ...`, line 285). -/
def verifyFailMsg (isComplete : Bool) (contentLength : Nat) : List Char :=
  "Stream completion failed: isComplete=".toList ++ (toString isComplete).toList
    ++ ", contentLength=".toList ++ (Nat.repr contentLength).toList

/-- The streaming part of `POST` (lines 146–303): persist the user message,
emit `start`, run the relay loop, then verify and persist.  Returns the wire
frames written to the client and the database writes, in order. -/
def runOrchestrator (inp : OrchInput) : List Wire × List DbWrite :=
  let userWrite := DbWrite.userMessage inp.conversationId inp.userMessage
  let r := relayRes inp
  let wire0 := Wire.start inp.conversationId inp.model.modelName
    inp.model.providerDisplayName :: r.1
  match r.2.2 with
  | .completed =>
    if jsTrim r.2.1 ≠ [] then
      let u := usageOf inp r.2.1
      (wire0 ++ [Wire.done inp.conversationId u, Wire.sentinel],
       [userWrite,
        DbWrite.assistantMessage inp.conversationId r.2.1
          u.inputTokens u.outputTokens u.totalTokens u.cost inp.model.id,
        DbWrite.apiUsage inp.userId inp.model.id
          u.inputTokens u.outputTokens u.totalTokens u.cost,
        DbWrite.touchConversation inp.conversationId])
    else
      (wire0 ++ [Wire.error (verifyFailMsg true r.2.1.length)], [userWrite])
  | .errored msg => (wire0 ++ [Wire.error msg], [userWrite])
  | .exhausted =>
    (wire0 ++ [Wire.error (verifyFailMsg false r.2.1.length)], [userWrite])

/-! ## Orchestrator persistence (claim C2) and usage accounting (claim C9) -/

/-- A sample resolved model for concrete runs. -/
def sampleModel : ModelEntry :=
  { id := "m1".toList
    modelName := "Test Model".toList
    providerDisplayName := "Test Provider".toList
    inputPricePer1kTokens := 3
    outputPricePer1kTokens := 15 }


/-- The relay loop never writes a `done` wire frame (that frame is written
only after verification and persistence). -/
theorem relayLoop_no_done (inp : OrchInput) :
    ∀ (evs : List StreamChunk) (acc cid : List Char) (u : UsageInfo),
      Wire.done cid u ∉ (relayLoop inp acc evs).1 := by
  intro evs
  induction evs with
  | nil => intro acc cid u h; simp [relayLoop] at h
  | cons e rest ih =>
    intro acc cid u
    simp only [relayLoop]
    by_cases h1 : e.type = .content ∧ e.delta.getD [] ≠ []
    · rw [if_pos h1]
      intro hmem
      rcases List.mem_cons.mp hmem with h | h
      · exact absurd h (by simp)
      · exact ih (acc ++ e.delta.getD []) cid u h
    · rw [if_neg h1]
      by_cases h2 : e.type = .done
      · rw [if_pos h2]
        intro hmem
        rw [List.mem_singleton] at hmem
        exact absurd hmem (by simp)
      · rw [if_neg h2]
        by_cases h3 : e.type = .error
        · rw [if_pos h3]
          intro hmem
          rw [List.mem_singleton] at hmem
          exact absurd hmem (by simp)
        · rw [if_neg h3]
          exact ih acc cid u

/-- Does this database write create the assistant message? -/
def isAssistantWrite : DbWrite → Bool
  | .assistantMessage _ _ _ _ _ _ _ => true
  | _ => false

/-- Does this database write create the usage-ledger row? -/
def isApiUsageWrite : DbWrite → Bool
  | .apiUsage _ _ _ _ _ _ => true
  | _ => false

/-- **C2.** Persistence of the streaming handler: the user's message is
persisted first, before the adapter stream is consumed; if the relay ends
in an `error`, ends in `done` with empty trimmed content, or runs out of
events without a terminal one, then the user message is the *only*
database write (no assistant message, no usage row) and no `done` wire
frame is emitted; the assistant message and the usage row are written if
and only if the relay completed via `done` with non-empty trimmed
content — and so is the `done` wire frame. -/
theorem orchestrator_persistence_spec (inp : OrchInput) :
    (runOrchestrator inp).2.head?
        = some (.userMessage inp.conversationId inp.userMessage)
    ∧ ((relayRes inp).2.2 ≠ .completed ∨ jsTrim (relayRes inp).2.1 = [] →
        (runOrchestrator inp).2
            = [.userMessage inp.conversationId inp.userMessage]
          ∧ ∀ cid u, Wire.done cid u ∉ (runOrchestrator inp).1)
    ∧ ((∃ w ∈ (runOrchestrator inp).2, isAssistantWrite w = true) ↔
        (relayRes inp).2.2 = .completed ∧ jsTrim (relayRes inp).2.1 ≠ [])
    ∧ ((∃ w ∈ (runOrchestrator inp).2, isApiUsageWrite w = true) ↔
        (relayRes inp).2.2 = .completed ∧ jsTrim (relayRes inp).2.1 ≠ [])
    ∧ ((∃ cid u, Wire.done cid u ∈ (runOrchestrator inp).1) ↔
        (relayRes inp).2.2 = .completed ∧ jsTrim (relayRes inp).2.1 ≠ []) := by
  have hnodone : ∀ cid u, Wire.done cid u ∉ (relayRes inp).1 := fun cid u =>
    relayLoop_no_done inp inp.adapterEvents [] cid u
  cases houtcome : (relayRes inp).2.2 with
  | completed =>
    by_cases htrim : jsTrim (relayRes inp).2.1 = []
    · have hrun : runOrchestrator inp
          = (Wire.start inp.conversationId inp.model.modelName
              inp.model.providerDisplayName :: (relayRes inp).1
              ++ [Wire.error (verifyFailMsg true (relayRes inp).2.1.length)],
            [.userMessage inp.conversationId inp.userMessage]) := by
        simp only [runOrchestrator, houtcome]
        rw [if_neg (by simpa using htrim)]
      refine ⟨by rw [hrun]; try rfl, fun _ => ⟨by rw [hrun]; try rfl, ?_⟩, ?_, ?_, ?_⟩
      · intro cid u hmem
        rw [hrun] at hmem
        rcases List.mem_cons.mp hmem with h | h
        · exact absurd h (by simp)
        · rcases List.mem_append.mp h with h2 | h2
          · exact hnodone cid u h2
          · rw [List.mem_singleton] at h2
            exact absurd h2 (by simp)
      · rw [hrun]
        simp only [List.mem_singleton]
        constructor
        · rintro ⟨w, hw, hass⟩
          subst hw
          simp [isAssistantWrite] at hass
        · rintro ⟨_, ht⟩
          exact absurd htrim ht
      · rw [hrun]
        simp only [List.mem_singleton]
        constructor
        · rintro ⟨w, hw, hass⟩
          subst hw
          simp [isApiUsageWrite] at hass
        · rintro ⟨_, ht⟩
          exact absurd htrim ht
      · constructor
        · rintro ⟨cid, u, hmem⟩
          rw [hrun] at hmem
          rcases List.mem_cons.mp hmem with h | h
          · exact absurd h (by simp)
          · rcases List.mem_append.mp h with h2 | h2
            · exact absurd h2 (hnodone cid u)
            · rw [List.mem_singleton] at h2
              exact absurd h2 (by simp)
        · rintro ⟨_, ht⟩
          exact absurd htrim ht
    · have hrun : runOrchestrator inp
          = (Wire.start inp.conversationId inp.model.modelName
              inp.model.providerDisplayName :: (relayRes inp).1
              ++ [Wire.done inp.conversationId
                    (usageOf inp (relayRes inp).2.1), Wire.sentinel],
            [.userMessage inp.conversationId inp.userMessage,
             .assistantMessage inp.conversationId (relayRes inp).2.1
               (usageOf inp (relayRes inp).2.1).inputTokens
               (usageOf inp (relayRes inp).2.1).outputTokens
               (usageOf inp (relayRes inp).2.1).totalTokens
               (usageOf inp (relayRes inp).2.1).cost inp.model.id,
             .apiUsage inp.userId inp.model.id
               (usageOf inp (relayRes inp).2.1).inputTokens
               (usageOf inp (relayRes inp).2.1).outputTokens
               (usageOf inp (relayRes inp).2.1).totalTokens
               (usageOf inp (relayRes inp).2.1).cost,
             .touchConversation inp.conversationId]) := by
        simp only [runOrchestrator, houtcome]
        rw [if_pos (by simpa using htrim)]
      refine ⟨by rw [hrun]; try rfl, fun hfail => ?_, ?_, ?_, ?_⟩
      · rcases hfail with h | h
        · exact absurd rfl h
        · exact absurd h htrim
      · refine ⟨fun _ => ⟨rfl, htrim⟩, fun _ => ?_⟩
        rw [hrun]
        refine ⟨.assistantMessage inp.conversationId (relayRes inp).2.1
          (usageOf inp (relayRes inp).2.1).inputTokens
          (usageOf inp (relayRes inp).2.1).outputTokens
          (usageOf inp (relayRes inp).2.1).totalTokens
          (usageOf inp (relayRes inp).2.1).cost inp.model.id, by simp, rfl⟩
      · refine ⟨fun _ => ⟨rfl, htrim⟩, fun _ => ?_⟩
        rw [hrun]
        refine ⟨.apiUsage inp.userId inp.model.id
          (usageOf inp (relayRes inp).2.1).inputTokens
          (usageOf inp (relayRes inp).2.1).outputTokens
          (usageOf inp (relayRes inp).2.1).totalTokens
          (usageOf inp (relayRes inp).2.1).cost, by simp, rfl⟩
      · refine ⟨fun _ => ⟨rfl, htrim⟩, fun _ => ?_⟩
        rw [hrun]
        exact ⟨inp.conversationId, usageOf inp (relayRes inp).2.1, by simp⟩
  | errored msg =>
    have hrun : runOrchestrator inp
        = (Wire.start inp.conversationId inp.model.modelName
            inp.model.providerDisplayName :: (relayRes inp).1
            ++ [Wire.error msg],
          [.userMessage inp.conversationId inp.userMessage]) := by
      simp only [runOrchestrator, houtcome]
    have hnone : ∀ cid u, Wire.done cid u ∉ (runOrchestrator inp).1 := by
      intro cid u hmem
      rw [hrun] at hmem
      rcases List.mem_cons.mp hmem with h | h
      · exact absurd h (by simp)
      · rcases List.mem_append.mp h with h2 | h2
        · exact hnodone cid u h2
        · rw [List.mem_singleton] at h2
          exact absurd h2 (by simp)
    refine ⟨by rw [hrun]; try rfl, fun _ => ⟨by rw [hrun]; try rfl, hnone⟩, ?_, ?_, ?_⟩
    · rw [hrun]
      simp only [List.mem_singleton]
      constructor
      · rintro ⟨w, hw, hass⟩
        subst hw
        simp [isAssistantWrite] at hass
      · rintro ⟨hc, _⟩
        exact absurd hc (by simp)
    · rw [hrun]
      simp only [List.mem_singleton]
      constructor
      · rintro ⟨w, hw, hass⟩
        subst hw
        simp [isApiUsageWrite] at hass
      · rintro ⟨hc, _⟩
        exact absurd hc (by simp)
    · constructor
      · rintro ⟨cid, u, hmem⟩
        exact absurd hmem (hnone cid u)
      · rintro ⟨hc, _⟩
        exact absurd hc (by simp)
  | exhausted =>
    have hrun : runOrchestrator inp
        = (Wire.start inp.conversationId inp.model.modelName
            inp.model.providerDisplayName :: (relayRes inp).1
            ++ [Wire.error (verifyFailMsg false (relayRes inp).2.1.length)],
          [.userMessage inp.conversationId inp.userMessage]) := by
      simp only [runOrchestrator, houtcome]
    have hnone : ∀ cid u, Wire.done cid u ∉ (runOrchestrator inp).1 := by
      intro cid u hmem
      rw [hrun] at hmem
      rcases List.mem_cons.mp hmem with h | h
      · exact absurd h (by simp)
      · rcases List.mem_append.mp h with h2 | h2
        · exact hnodone cid u h2
        · rw [List.mem_singleton] at h2
          exact absurd h2 (by simp)
    refine ⟨by rw [hrun]; try rfl, fun _ => ⟨by rw [hrun]; try rfl, hnone⟩, ?_, ?_, ?_⟩
    · rw [hrun]
      simp only [List.mem_singleton]
      constructor
      · rintro ⟨w, hw, hass⟩
        subst hw
        simp [isAssistantWrite] at hass
      · rintro ⟨hc, _⟩
        exact absurd hc (by simp)
    · rw [hrun]
      simp only [List.mem_singleton]
      constructor
      · rintro ⟨w, hw, hass⟩
        subst hw
        simp [isApiUsageWrite] at hass
      · rintro ⟨hc, _⟩
        exact absurd hc (by simp)
    · constructor
      · rintro ⟨cid, u, hmem⟩
        exact absurd hmem (hnone cid u)
      · rintro ⟨hc, _⟩
        exact absurd hc (by simp)

/-- `Math.ceil(n / 4)` really is the ceiling of `n / 4`. -/
theorem estimateTokens_eq_ceil (n : Nat) :
    estimateTokens n = Nat.ceil ((n : ℚ) / 4) := by
  rcases Nat.eq_zero_or_pos n with h0 | hpos
  · subst h0
    simp [estimateTokens]
  · have hm : (n + 3) / 4 ≠ 0 := by omega
    have hm1 : 1 ≤ (n + 3) / 4 := Nat.one_le_iff_ne_zero.mpr hm
    rw [estimateTokens, eq_comm, Nat.ceil_eq_iff hm]
    have h1 : (4 : ℚ) * (((n + 3) / 4 : Nat) : ℚ) ≤ (n : ℚ) + 3 := by
      exact_mod_cast (by omega : 4 * ((n + 3) / 4) ≤ n + 3)
    have h2 : (n : ℚ) ≤ 4 * (((n + 3) / 4 : Nat) : ℚ) := by
      exact_mod_cast (by omega : n ≤ 4 * ((n + 3) / 4))
    constructor
    · rw [Nat.cast_sub hm1, lt_div_iff (by norm_num : (0:ℚ) < 4)]
      push_cast
      linarith
    · rw [div_le_iff (by norm_num : (0:ℚ) < 4)]
      linarith

/-- **C9.** Usage accounting on the streaming path: any `done` wire frame
carries the request's conversation id and the usage computed from the
length heuristic — `inputTokens = ⌈(joined prompt text).length / 4⌉`,
`outputTokens = ⌈(accumulated content).length / 4⌉`,
`totalTokens = inputTokens + outputTokens`, and
`cost = (inputTokens/1000)·inputPrice + (outputTokens/1000)·outputPrice`
with the unit prices of the resolved model. -/
theorem usage_accounting_spec (inp : OrchInput) (cid : List Char)
    (u : UsageInfo) (hmem : Wire.done cid u ∈ (runOrchestrator inp).1) :
    cid = inp.conversationId
    ∧ u = usageOf inp (relayRes inp).2.1
    ∧ u.inputTokens = Nat.ceil (((promptText inp).length : ℚ) / 4)
    ∧ u.outputTokens = Nat.ceil ((((relayRes inp).2.1).length : ℚ) / 4)
    ∧ u.totalTokens = u.inputTokens + u.outputTokens
    ∧ u.cost = (u.inputTokens : ℚ) / 1000 * inp.model.inputPricePer1kTokens
        + (u.outputTokens : ℚ) / 1000 * inp.model.outputPricePer1kTokens := by
  have hnodone : ∀ cid u, Wire.done cid u ∉ (relayRes inp).1 := fun cid u =>
    relayLoop_no_done inp inp.adapterEvents [] cid u
  cases houtcome : (relayRes inp).2.2 with
  | completed =>
    by_cases htrim : jsTrim (relayRes inp).2.1 = []
    · have hrun : (runOrchestrator inp).1
          = Wire.start inp.conversationId inp.model.modelName
              inp.model.providerDisplayName :: (relayRes inp).1
              ++ [Wire.error (verifyFailMsg true (relayRes inp).2.1.length)] := by
        simp only [runOrchestrator, houtcome]
        rw [if_neg (by simpa using htrim)]
      rw [hrun] at hmem
      rcases List.mem_cons.mp hmem with h | h
      · exact absurd h (by simp)
      · rcases List.mem_append.mp h with h2 | h2
        · exact absurd h2 (hnodone cid u)
        · rw [List.mem_singleton] at h2
          exact absurd h2 (by simp)
    · have hrun : (runOrchestrator inp).1
          = Wire.start inp.conversationId inp.model.modelName
              inp.model.providerDisplayName :: (relayRes inp).1
              ++ [Wire.done inp.conversationId
                    (usageOf inp (relayRes inp).2.1), Wire.sentinel] := by
        simp only [runOrchestrator, houtcome]
        rw [if_pos (by simpa using htrim)]
      rw [hrun] at hmem
      rcases List.mem_cons.mp hmem with h | h
      · exact absurd h (by simp)
      · rcases List.mem_append.mp h with h2 | h2
        · exact absurd h2 (hnodone cid u)
        · rcases List.mem_cons.mp h2 with h3 | h3
          · obtain ⟨hcid, hu⟩ := Wire.done.inj h3
            subst hu
            refine ⟨hcid, rfl, ?_, ?_, ?_, ?_⟩
            · simp only [usageOf]
              exact estimateTokens_eq_ceil _
            · simp only [usageOf]
              exact estimateTokens_eq_ceil _
            · simp only [usageOf]
            · simp only [usageOf]
          · rw [List.mem_singleton] at h3
            exact absurd h3 (by simp)
  | errored msg =>
    have hrun : (runOrchestrator inp).1
        = Wire.start inp.conversationId inp.model.modelName
            inp.model.providerDisplayName :: (relayRes inp).1
            ++ [Wire.error msg] := by
      simp only [runOrchestrator, houtcome]
    rw [hrun] at hmem
    rcases List.mem_cons.mp hmem with h | h
    · exact absurd h (by simp)
    · rcases List.mem_append.mp h with h2 | h2
      · exact absurd h2 (hnodone cid u)
      · rw [List.mem_singleton] at h2
        exact absurd h2 (by simp)
  | exhausted =>
    have hrun : (runOrchestrator inp).1
        = Wire.start inp.conversationId inp.model.modelName
            inp.model.providerDisplayName :: (relayRes inp).1
            ++ [Wire.error (verifyFailMsg false (relayRes inp).2.1.length)] := by
      simp only [runOrchestrator, houtcome]
    rw [hrun] at hmem
    rcases List.mem_cons.mp hmem with h | h
    · exact absurd h (by simp)
    · rcases List.mem_append.mp h with h2 | h2
      · exact absurd h2 (hnodone cid u)
      · rw [List.mem_singleton] at h2
        exact absurd h2 (by simp)

/-- The end-to-end request of the spec scenario: message `"2+2?"`, fresh
conversation, adapter stream `content "4"` then `done`. -/
def c9Input : OrchInput :=
  { conversationId := "conv-new".toList
    userId := "u1".toList
    contextMessages := []
    userMessage := "2+2?".toList
    model := sampleModel
    adapterEvents := [contentEv "4".toList, doneEv] }

/-- A request whose adapter stream fails after a partial delta. -/
def cErrInput : OrchInput :=
  { conversationId := "conv-err".toList
    userId := "u1".toList
    contextMessages := []
    userMessage := "hi".toList
    model := sampleModel
    adapterEvents := [contentEv "par".toList, errEv "boom".toList] }

/-- Witness for C2: on the concrete failing stream, the user message is the
only database write and no `done` wire frame is emitted. -/
theorem orchestrator_persistence_spec_witness :
    (runOrchestrator cErrInput).2
        = [.userMessage cErrInput.conversationId cErrInput.userMessage]
      ∧ ∀ cid u, Wire.done cid u ∉ (runOrchestrator cErrInput).1 :=
  (orchestrator_persistence_spec cErrInput).2.1 (Or.inl (by decide))

/-- Witness for C9: on the concrete `"2+2?"` → `"4"` scenario, the `done`
frame's usage satisfies the estimator and additivity equations. -/
theorem usage_accounting_spec_witness :
    (usageOf c9Input (relayRes c9Input).2.1).inputTokens
        = Nat.ceil (((promptText c9Input).length : ℚ) / 4)
      ∧ (usageOf c9Input (relayRes c9Input).2.1).totalTokens
        = (usageOf c9Input (relayRes c9Input).2.1).inputTokens
          + (usageOf c9Input (relayRes c9Input).2.1).outputTokens := by
  have ho : (relayRes c9Input).2.2 = .completed := by decide
  have ht : jsTrim (relayRes c9Input).2.1 ≠ [] := by decide
  have hmem : Wire.done c9Input.conversationId
      (usageOf c9Input (relayRes c9Input).2.1) ∈ (runOrchestrator c9Input).1 := by
    simp only [runOrchestrator, ho]
    rw [if_pos ht]
    simp
  exact ⟨(usage_accounting_spec c9Input _ _ hmem).2.2.1,
    (usage_accounting_spec c9Input _ _ hmem).2.2.2.2.1⟩

/-! ## JSON values and their serialization

To state chunk-boundary independence of the frame parser "for any
serialized JSON object" we need a model of JSON values and of their
serialization (this is the one external collaborator of the scanner —
the upstream's `JSON.stringify`-style wire text).  String content is
arbitrary; `"` and `\` are escaped with a backslash. -/

mutual
/-- A JSON value. -/
inductive Json where
  | jnull
  | jbool (b : Bool)
  | jnum (n : Int)
  | jstr (s : List Char)
  | jarr (elems : JsonList)
  | jobj (fields : JsonFields)

/-- A list of JSON values (array elements). -/
inductive JsonList where
  | nil
  | cons (hd : Json) (tl : JsonList)

/-- A list of JSON object fields. -/
inductive JsonFields where
  | nil
  | cons (name : List Char) (val : Json) (tl : JsonFields)
end

/-- Escape one character of JSON string content. -/
def escapeChar (c : Char) : List Char :=
  if c = '"' ∨ c = '\\' then ['\\', c] else [c]

/-- Escape JSON string content. -/
def escapeStr : List Char → List Char
  | [] => []
  | c :: cs => escapeChar c ++ escapeStr cs

/-- Decimal digits of a natural number (fuel-indexed; `natChars` always
supplies enough fuel). -/
def natCharsCore : Nat → Nat → List Char → List Char
  | 0, _, acc => acc
  | fuel + 1, n, acc =>
    if n < 10 then Nat.digitChar n :: acc
    else natCharsCore fuel (n / 10) (Nat.digitChar (n % 10) :: acc)

/-- Decimal representation of a natural number. -/
def natChars (n : Nat) : List Char := natCharsCore (n + 1) n []

/-- Decimal representation of an integer. -/
def intChars (n : Int) : List Char :=
  if n < 0 then '-' :: natChars n.natAbs else natChars n.natAbs

mutual
/-- JSON serialization of a value. -/
def serializeJson : Json → List Char
  | .jnull => "null".toList
  | .jbool true => "true".toList
  | .jbool false => "false".toList
  | .jnum n => intChars n
  | .jstr s => '"' :: escapeStr s ++ ['"']
  | .jarr es => '[' :: serializeJsonList es ++ [']']
  | .jobj fs => '{' :: serializeJsonFields fs ++ ['}']

/-- Serialization of array elements, comma-separated. -/
def serializeJsonList : JsonList → List Char
  | .nil => []
  | .cons x .nil => serializeJson x
  | .cons x (.cons y tl) =>
    serializeJson x ++ ',' :: serializeJsonList (.cons y tl)

/-- Serialization of object fields, comma-separated. -/
def serializeJsonFields : JsonFields → List Char
  | .nil => []
  | .cons name v .nil => '"' :: escapeStr name ++ '"' :: ':' :: serializeJson v
  | .cons name v (.cons n2 v2 tl) =>
    ('"' :: escapeStr name ++ '"' :: ':' :: serializeJson v)
      ++ ',' :: serializeJsonFields (.cons n2 v2 tl)
end

/-! ## Stream shape: one terminal event, at the end

`streamShapeOk` decides whether an event sequence has the shape
`start? content* (done | error)`: a single terminal event, placed last,
preceded only by `content` events, with `start` — if present — first. -/

/-- Is this a terminal (`done` or `error`) event? -/
def isTerminalEv (e : StreamChunk) : Bool := e.type == .done || e.type == .error

/-- `content* (done | error)`. -/
def tailShapeOk : List StreamChunk → Bool
  | [] => false
  | [e] => isTerminalEv e
  | e :: rest => (e.type == .content) && tailShapeOk rest

/-- `start? content* (done | error)`. -/
def streamShapeOk : List StreamChunk → Bool
  | [] => false
  | e :: rest => if e.type == .start then tailShapeOk rest else tailShapeOk (e :: rest)

/-- Content events followed by one terminal event have the right tail shape. -/
theorem tailShapeOk_append (t : StreamChunk) (ht : isTerminalEv t = true) :
    ∀ cs : List StreamChunk, (∀ e ∈ cs, e.type = .content) →
      tailShapeOk (cs ++ [t]) = true := by
  intro cs
  induction cs with
  | nil => intro _; simpa [tailShapeOk]
  | cons c cs ih =>
    intro hcs
    have hc : c.type = .content := hcs c (by simp)
    cases cs with
    | nil => simp [tailShapeOk, hc, ht]
    | cons c2 cs2 =>
      have := ih (fun e he => hcs e (by simp [he]))
      simpa [tailShapeOk, hc] using this

/-- Content events followed by one terminal event have the right stream
shape (no `start` needed). -/
theorem streamShapeOk_append (cs : List StreamChunk) (t : StreamChunk)
    (hcs : ∀ e ∈ cs, e.type = .content) (ht : isTerminalEv t = true) :
    streamShapeOk (cs ++ [t]) = true := by
  cases cs with
  | nil =>
    have hne : ¬((t.type == EvType.start) = true) := by
      simp only [isTerminalEv, Bool.or_eq_true, beq_iff_eq] at ht
      rcases ht with h | h
      · simp [h]
      · simp [h]
    rw [List.nil_append, streamShapeOk, if_neg hne]
    exact tailShapeOk_append t ht [] (by simp)
  | cons c cs2 =>
    have hc : c.type = .content := hcs c (by simp)
    rw [List.cons_append, streamShapeOk, if_neg (by simp [hc])]
    exact tailShapeOk_append t ht (c :: cs2) hcs

/-! ## OpenRouter adapter event-shape lemmas -/

/-- The line loop yields only non-empty `content` events, plus a final
`done` exactly when it saw the `[DONE]` sentinel. -/
theorem orLines_shape (pdelta : List Char → Option (List Char)) :
    ∀ ls : List (List Char), ∃ cs,
      (∀ e ∈ cs, ∃ d, d ≠ [] ∧ e = contentEv d)
      ∧ (orLines pdelta ls = (cs ++ [doneEv], true)
          ∨ orLines pdelta ls = (cs, false)) := by
  intro ls
  induction ls with
  | nil => exact ⟨[], by simp, Or.inr rfl⟩
  | cons l ls ih =>
    obtain ⟨cs, hcs, hor⟩ := ih
    by_cases hpre : "data: ".toList.isPrefixOf l = true
    · by_cases hdone : jsTrim (l.drop 6) = "[DONE]".toList
      · refine ⟨[], by simp, Or.inl ?_⟩
        simp only [orLines]
        rw [if_pos hpre, if_pos hdone]
        rfl
      · cases hd : pdelta (jsTrim (l.drop 6)) with
        | none =>
          refine ⟨cs, hcs, ?_⟩
          simp only [orLines]
          rw [if_pos hpre, if_neg hdone]
          simp only [hd]
          exact hor
        | some d =>
          by_cases hde : d = []
          · refine ⟨cs, hcs, ?_⟩
            simp only [orLines]
            rw [if_pos hpre, if_neg hdone]
            simp only [hd]
            rw [if_pos hde]
            exact hor
          · refine ⟨contentEv d :: cs, ?_, ?_⟩
            · intro e he
              rcases List.mem_cons.mp he with h | h
              · exact ⟨d, hde, h⟩
              · exact hcs e h
            · simp only [orLines]
              rw [if_pos hpre, if_neg hdone]
              simp only [hd]
              rw [if_neg hde]
              rcases hor with h | h
              · left
                rw [h]
                rfl
              · right
                rw [h]
    · refine ⟨cs, hcs, ?_⟩
      simp only [orLines]
      rw [if_neg hpre]
      exact hor

/-- The read loop yields only non-empty `content` events, plus a final
`done` exactly when some line carried the `[DONE]` sentinel. -/
theorem orChunks_shape (pdelta : List Char → Option (List Char)) :
    ∀ (chunks : List (List Char)) (buffer : List Char), ∃ cs,
      (∀ e ∈ cs, ∃ d, d ≠ [] ∧ e = contentEv d)
      ∧ (orChunks pdelta buffer chunks = (cs ++ [doneEv], true)
          ∨ orChunks pdelta buffer chunks = (cs, false)) := by
  intro chunks
  induction chunks with
  | nil => exact fun _ => ⟨[], by simp, Or.inr rfl⟩
  | cons ch rest ih =>
    intro buffer
    obtain ⟨cs, hcs, hor⟩ :=
      orLines_shape pdelta (splitOnChar '\n' (buffer ++ ch)).dropLast
    obtain ⟨cs2, hcs2, hor2⟩ :=
      ih ((splitOnChar '\n' (buffer ++ ch)).getLastD [])
    rcases hor with h | h
    · refine ⟨cs, hcs, Or.inl ?_⟩
      simp only [orChunks]
      rw [h]
      simp
    · rcases hor2 with h2 | h2
      · refine ⟨cs ++ cs2, ?_, Or.inl ?_⟩
        · intro e he
          rcases List.mem_append.mp he with hh | hh
          · exact hcs e hh
          · exact hcs2 e hh
        · simp only [orChunks]
          rw [h, h2]
          simp
      · refine ⟨cs ++ cs2, ?_, Or.inr ?_⟩
        · intro e he
          rcases List.mem_append.mp he with hh | hh
          · exact hcs e hh
          · exact hcs2 e hh
        · simp only [orChunks]
          rw [h, h2]
          simp

/-- `OpenRouterAPI.chatStream` always produces some `content` events (all
with non-empty deltas) followed by exactly one terminal event. -/
theorem openRouter_shape (pdelta : List Char → Option (List Char))
    (input : UpInput) : ∃ cs t,
      (∀ e ∈ cs, ∃ d, d ≠ [] ∧ e = contentEv d)
      ∧ (t = doneEv ∨ ∃ m, t = errEv m)
      ∧ openRouterChatStream pdelta input = cs ++ [t] := by
  cases input with
  | setupFail msg =>
    exact ⟨[], errEv msg, by simp, Or.inr ⟨msg, rfl⟩, rfl⟩
  | stream chunks readFail =>
    obtain ⟨cs, hcs, hor⟩ := orChunks_shape pdelta chunks []
    rcases hor with h | h
    · refine ⟨cs, doneEv, hcs, Or.inl rfl, ?_⟩
      simp only [openRouterChatStream]
      rw [h]
      simp
    · cases readFail with
      | none =>
        refine ⟨cs, doneEv, hcs, Or.inl rfl, ?_⟩
        simp only [openRouterChatStream]
        rw [h]
        simp
      | some msg =>
        refine ⟨cs, errEv msg, hcs, Or.inr ⟨msg, rfl⟩, ?_⟩
        simp only [openRouterChatStream]
        rw [h]
        simp

/-! ## Gemini adapter event-shape lemmas -/

/-- Handling one frame yields only `content` events, plus a final `done`
exactly when the generator returns. -/
theorem gFrame_shape (gparse : List Char → Option GeminiFrame) (hasRc : Bool)
    (frame : List Char) : ∃ cs b,
      (∀ e ∈ cs, ∃ d, e = contentEv d)
      ∧ (gFrame gparse hasRc frame = (cs ++ [doneEv], true, b)
          ∨ gFrame gparse hasRc frame = (cs, false, b)) := by
  cases hg : gparse frame with
  | none =>
    refine ⟨[], hasRc, by simp, Or.inr ?_⟩
    simp only [gFrame, hg]
  | some f =>
    by_cases h1 : (f.text.getD [] ≠ []) ∧ f.finishReason = some "STOP".toList
    · by_cases hrc : hasRc = true
      · refine ⟨[], hasRc, by simp, Or.inl ?_⟩
        simp only [gFrame, hg]
        rw [if_pos h1, if_pos hrc]
        rfl
      · refine ⟨(simulateWords (splitOnChar ' ' (f.text.getD []))).map contentEv,
          true, ?_, Or.inl ?_⟩
        · intro e he
          obtain ⟨d, _, hd⟩ := List.mem_map.mp he
          exact ⟨d, hd.symm⟩
        · simp only [gFrame, hg]
          rw [if_pos h1, if_neg hrc]
    · cases hft : f.text with
      | none =>
        by_cases hfin : f.finishReason = some "STOP".toList
            ∨ f.finishReason = some "MAX_TOKENS".toList
        · refine ⟨[], hasRc, by simp, Or.inl ?_⟩
          simp only [gFrame, hg]
          rw [if_neg h1]
          rw [hft]
          simp only [gDelta]
          rw [if_pos hfin]
        · refine ⟨[], hasRc, by simp, Or.inr ?_⟩
          simp only [gFrame, hg]
          rw [if_neg h1]
          rw [hft]
          simp only [gDelta]
          rw [if_neg hfin]
      | some d =>
        by_cases hde : d = []
        · by_cases hfin : f.finishReason = some "STOP".toList
              ∨ f.finishReason = some "MAX_TOKENS".toList
          · refine ⟨[], hasRc, by simp, Or.inl ?_⟩
            simp only [gFrame, hg]
            rw [if_neg h1]
            rw [hft]
            simp only [gDelta]
            rw [if_pos hde, if_pos hfin]
          · refine ⟨[], hasRc, by simp, Or.inr ?_⟩
            simp only [gFrame, hg]
            rw [if_neg h1]
            rw [hft]
            simp only [gDelta]
            rw [if_pos hde, if_neg hfin]
        · by_cases hfin : f.finishReason = some "STOP".toList
              ∨ f.finishReason = some "MAX_TOKENS".toList
          · refine ⟨[contentEv d], true, by simp, Or.inl ?_⟩
            simp only [gFrame, hg]
            rw [if_neg h1]
            rw [hft]
            simp only [gDelta]
            rw [if_neg hde, if_pos hfin]
          · refine ⟨[contentEv d], true, by simp, Or.inr ?_⟩
            simp only [gFrame, hg]
            rw [if_neg h1]
            rw [hft]
            simp only [gDelta]
            rw [if_neg hde, if_neg hfin]

/-- Handling a list of frames yields only `content` events, plus a final
`done` exactly when the generator returns. -/
theorem gFrames_shape (gparse : List Char → Option GeminiFrame) :
    ∀ (frames : List (List Char)) (hasRc : Bool), ∃ cs b,
      (∀ e ∈ cs, ∃ d, e = contentEv d)
      ∧ (gFrames gparse hasRc frames = (cs ++ [doneEv], true, b)
          ∨ gFrames gparse hasRc frames = (cs, false, b)) := by
  intro frames
  induction frames with
  | nil => exact fun hasRc => ⟨[], hasRc, by simp, Or.inr rfl⟩
  | cons fr frs ih =>
    intro hasRc
    obtain ⟨cs, b, hcs, hor⟩ := gFrame_shape gparse hasRc fr
    rcases hor with h | h
    · refine ⟨cs, b, hcs, Or.inl ?_⟩
      simp only [gFrames]
      rw [h]
      simp
    · obtain ⟨cs2, b2, hcs2, hor2⟩ := ih b
      rcases hor2 with h2 | h2
      · refine ⟨cs ++ cs2, b2, ?_, Or.inl ?_⟩
        · intro e he
          rcases List.mem_append.mp he with hh | hh
          · exact hcs e hh
          · exact hcs2 e hh
        · simp only [gFrames]
          rw [h, h2]
          simp
      · refine ⟨cs ++ cs2, b2, ?_, Or.inr ?_⟩
        · intro e he
          rcases List.mem_append.mp he with hh | hh
          · exact hcs e hh
          · exact hcs2 e hh
        · simp only [gFrames]
          rw [h, h2]
          simp

/-- The Gemini read loop yields only `content` events, plus a final `done`
exactly when the generator returned early. -/
theorem gChunks_shape (gparse : List Char → Option GeminiFrame) :
    ∀ (chunks : List (List Char)) (buffer : List Char) (hasRc : Bool), ∃ cs b,
      (∀ e ∈ cs, ∃ d, e = contentEv d)
      ∧ (gChunks gparse buffer hasRc chunks = (cs ++ [doneEv], true, b)
          ∨ gChunks gparse buffer hasRc chunks = (cs, false, b)) := by
  intro chunks
  induction chunks with
  | nil => exact fun _ hasRc => ⟨[], hasRc, by simp, Or.inr rfl⟩
  | cons ch rest ih =>
    intro buffer hasRc
    obtain ⟨cs, b, hcs, hor⟩ :=
      gFrames_shape gparse (scanBuffer (buffer ++ ch)).1 hasRc
    rcases hor with h | h
    · refine ⟨cs, b, hcs, Or.inl ?_⟩
      simp only [gChunks]
      rw [h]
      simp
    · obtain ⟨cs2, b2, hcs2, hor2⟩ := ih (scanBuffer (buffer ++ ch)).2 b
      rcases hor2 with h2 | h2
      · refine ⟨cs ++ cs2, b2, ?_, Or.inl ?_⟩
        · intro e he
          rcases List.mem_append.mp he with hh | hh
          · exact hcs e hh
          · exact hcs2 e hh
        · simp only [gChunks]
          rw [h, h2]
          simp
      · refine ⟨cs ++ cs2, b2, ?_, Or.inr ?_⟩
        · intro e he
          rcases List.mem_append.mp he with hh | hh
          · exact hcs e hh
          · exact hcs2 e hh
        · simp only [gChunks]
          rw [h, h2]
          simp

/-- `GeminiAPI.chatStream` always produces some `content` events followed by
exactly one terminal event. -/
theorem gemini_shape (gparse : List Char → Option GeminiFrame)
    (input : UpInput) : ∃ cs t,
      (∀ e ∈ cs, ∃ d, e = contentEv d)
      ∧ (t = doneEv ∨ ∃ m, t = errEv m)
      ∧ geminiChatStream gparse input = cs ++ [t] := by
  cases input with
  | setupFail msg =>
    exact ⟨[], errEv msg, by simp, Or.inr ⟨msg, rfl⟩, rfl⟩
  | stream chunks readFail =>
    obtain ⟨cs, b, hcs, hor⟩ := gChunks_shape gparse chunks [] false
    rcases hor with h | h
    · refine ⟨cs, doneEv, hcs, Or.inl rfl, ?_⟩
      simp only [geminiChatStream]
      rw [h]
      simp
    · cases readFail with
      | some msg =>
        refine ⟨cs, errEv msg, hcs, Or.inr ⟨msg, rfl⟩, ?_⟩
        simp only [geminiChatStream]
        rw [h]
        simp
      | none =>
        by_cases hb : b = true
        · refine ⟨cs, doneEv, hcs, Or.inl rfl, ?_⟩
          simp only [geminiChatStream]
          rw [h]
          simp [hb]
        · refine ⟨cs, errEv "No content received from Gemini stream".toList,
            hcs, Or.inr ⟨_, rfl⟩, ?_⟩
          simp only [geminiChatStream]
          rw [h]
          simp [hb]

/-! ## Claims C1 and C8 -/

/-- A content-then-terminal decomposition gives a valid stream shape. -/
theorem streamShapeOk_of_decomp {evs : List StreamChunk}
    (h : ∃ cs t, (∀ e ∈ cs, ∃ d, e = contentEv d)
      ∧ (t = doneEv ∨ ∃ m, t = errEv m) ∧ evs = cs ++ [t]) :
    streamShapeOk evs = true := by
  obtain ⟨cs, t, hcs, ht, heq⟩ := h
  subst heq
  refine streamShapeOk_append cs t (fun e he => ?_) ?_
  · obtain ⟨d, hd⟩ := hcs e he
    rw [hd]
    rfl
  · rcases ht with h | ⟨m, h⟩
    · rw [h]; rfl
    · rw [h]; rfl

/-- **C1.** Every event sequence produced by `OpenRouterAPI.chatStream`,
`GeminiAPI.chatStream` or `AIProviderManager.chatStream` contains exactly
one terminal event (`done` or `error`), placed last, preceded only by
`content` events (and a `start` event, were one present, could only be
first): the sequence matches `start? content* (done | error)`. -/
theorem chatStream_terminal_invariant :
    (∀ (pdelta : List Char → Option (List Char)) (input : UpInput),
      streamShapeOk (openRouterChatStream pdelta input) = true)
    ∧ (∀ (gparse : List Char → Option GeminiFrame) (input : UpInput),
      streamShapeOk (geminiChatStream gparse input) = true)
    ∧ (∀ (cfg : MgrCfg) (provider : PName)
        (pdelta : List Char → Option (List Char)) (orInput : UpInput)
        (gparse : List Char → Option GeminiFrame) (gmInput : UpInput),
      streamShapeOk
        (managerChatStream cfg provider pdelta orInput gparse gmInput) = true) := by
  refine ⟨fun pdelta input => ?_, fun gparse input => ?_,
    fun cfg provider pdelta orInput gparse gmInput => ?_⟩
  · obtain ⟨cs, t, hcs, ht, heq⟩ := openRouter_shape pdelta input
    exact streamShapeOk_of_decomp
      ⟨cs, t, fun e he => ((hcs e he).imp fun d hd => hd.2), ht, heq⟩
  · exact streamShapeOk_of_decomp (gemini_shape gparse input)
  · rw [managerChatStream]
    cases h : selectAdapter cfg provider with
    | none => rfl
    | some p =>
      cases p with
      | openrouter =>
        show streamShapeOk (openRouterChatStream pdelta orInput) = true
        obtain ⟨cs, t, hcs, ht, heq⟩ := openRouter_shape pdelta orInput
        exact streamShapeOk_of_decomp
          ⟨cs, t, fun e he => ((hcs e he).imp fun d hd => hd.2), ht, heq⟩
      | gemini =>
        show streamShapeOk (geminiChatStream gparse gmInput) = true
        exact streamShapeOk_of_decomp (gemini_shape gparse gmInput)

/-- **C8.** Provider-manager selection and failure channel: the requested
provider is used when configured; otherwise the manager falls back to
whichever adapter is configured; with no adapter configured, `chat` fails
with the no-provider error while `chatStream` emits a single terminal
`error` event — so the event stream is its only failure channel, and it
always satisfies the one-terminal-event shape. -/
theorem manager_selection_spec :
    (∀ cfg : MgrCfg, cfg.hasOpenRouter = true →
      selectAdapter cfg .openrouter = some .openrouter)
    ∧ (∀ cfg : MgrCfg, cfg.hasGemini = true →
      selectAdapter cfg .gemini = some .gemini)
    ∧ (∀ cfg : MgrCfg, ∀ provider : PName, cfg.hasOpenRouter = true →
      cfg.hasGemini = false → selectAdapter cfg provider = some .openrouter)
    ∧ (∀ cfg : MgrCfg, ∀ provider : PName, cfg.hasOpenRouter = false →
      cfg.hasGemini = true → selectAdapter cfg provider = some .gemini)
    ∧ (∀ (provider : PName) (orResult gmResult : Except (List Char) (List Char)),
      managerChat ⟨false, false⟩ provider orResult gmResult
        = .error noProviderMsg)
    ∧ (∀ (provider : PName) (pdelta : List Char → Option (List Char))
        (orInput : UpInput) (gparse : List Char → Option GeminiFrame)
        (gmInput : UpInput),
      managerChatStream ⟨false, false⟩ provider pdelta orInput gparse gmInput
        = [errEv noProviderMsg])
    ∧ (∀ (cfg : MgrCfg) (provider : PName)
        (pdelta : List Char → Option (List Char)) (orInput : UpInput)
        (gparse : List Char → Option GeminiFrame) (gmInput : UpInput),
      streamShapeOk
        (managerChatStream cfg provider pdelta orInput gparse gmInput) = true) := by
  refine ⟨?_, ?_, ?_, ?_, ?_, ?_, chatStream_terminal_invariant.2.2⟩
  · rintro ⟨o, g⟩ ho
    subst ho
    rw [selectAdapter, if_pos ⟨rfl, rfl⟩]
  · rintro ⟨o, g⟩ hg
    subst hg
    cases o with
    | false => rfl
    | true =>
      rw [selectAdapter, if_neg (by simp), if_pos ⟨rfl, rfl⟩]
  · rintro ⟨o, g⟩ provider ho hg
    subst ho; subst hg
    cases provider with
    | openrouter => rfl
    | gemini => rfl
  · rintro ⟨o, g⟩ provider ho hg
    subst ho; subst hg
    cases provider with
    | openrouter => rfl
    | gemini => rfl
  · intro provider orResult gmResult
    cases provider with
    | openrouter => rfl
    | gemini => rfl
  · intro provider pdelta orInput gparse gmInput
    cases provider with
    | openrouter => rfl
    | gemini => rfl

/-- Witness for C8: with only Gemini configured, an OpenRouter request
falls back to Gemini, and with nothing configured `chat` reports the
no-provider error. -/
theorem manager_selection_spec_witness :
    selectAdapter ⟨false, true⟩ .openrouter = some .gemini
      ∧ selectAdapter ⟨true, false⟩ .gemini = some .openrouter
      ∧ managerChat ⟨false, false⟩ .openrouter (.ok "a".toList) (.ok "b".toList)
          = .error noProviderMsg :=
  ⟨manager_selection_spec.2.2.2.1 ⟨false, true⟩ .openrouter rfl rfl,
   manager_selection_spec.2.2.1 ⟨true, false⟩ .gemini rfl rfl,
   manager_selection_spec.2.2.2.2.1 .openrouter (.ok "a".toList) (.ok "b".toList)⟩

/-! ## Claim C6: the Gemini simulated-streaming tokenization -/

/-- A complete non-incremental response (`finishReason: STOP`, full text,
no content emitted yet) arriving as one frame is re-emitted word by word —
`text.split(' ')` with the separator space re-attached to the *preceding*
word — followed by `done`. -/
theorem gemini_simulated_streaming (gparse : List Char → Option GeminiFrame)
    (frame text : List Char)
    (hscan : scanBuffer frame = ([frame], []))
    (hparse : gparse frame = some ⟨some text, some "STOP".toList⟩)
    (htext : text ≠ []) :
    geminiChatStream gparse (.stream [frame] none)
      = (simulateWords (splitOnChar ' ' text)).map contentEv ++ [doneEv] := by
  have h1 : gFrame gparse false frame
      = ((simulateWords (splitOnChar ' ' text)).map contentEv ++ [doneEv],
        true, true) := by
    simp [gFrame, hparse, htext]
  have h2 : gFrames gparse false [frame]
      = ((simulateWords (splitOnChar ' ' text)).map contentEv ++ [doneEv],
        true, true) := by
    simp [gFrames, h1]
  have h3 : gChunks gparse [] false [frame]
      = ((simulateWords (splitOnChar ' ' text)).map contentEv ++ [doneEv],
        true, true) := by
    simp [gChunks, List.nil_append, hscan, h2]
  simp [geminiChatStream, h3]

/-- The Gemini complete-response frame with text `"Hi there"`. -/
def c6Frame : List Char :=
  ("\x7b\"candidates\":[\x7b\"content\":\x7b\"parts\":[\x7b\"text\":\"Hi there\"\x7d]\x7d,"
    ++ "\"finishReason\":\"STOP\"\x7d]\x7d").toList

/-- `JSON.parse` plus the two optional-chain extractions, on `c6Frame`. -/
def c6Parse : List Char → Option GeminiFrame := fun cs =>
  if cs = c6Frame then some ⟨some "Hi there".toList, some "STOP".toList⟩
  else none

/-- **C6, counterexample.** The single complete-object response with text
`"Hi there"` produces the `content` events `"Hi "` then `"there"` (the
separator space is attached to the *preceding* token), not `"Hi"` then
`" there"` as claimed. -/
theorem gemini_tokenization_counterexample :
    geminiChatStream c6Parse (.stream [c6Frame] none)
        = [contentEv "Hi ".toList, contentEv "there".toList, doneEv]
      ∧ ¬ geminiChatStream c6Parse (.stream [c6Frame] none)
        = [contentEv "Hi".toList, contentEv " there".toList, doneEv] := by
  constructor
  · decide
  · decide

/-- Witness for C6 (amended): the concrete `"Hi there"` complete-response
frame yields exactly the simulated word events followed by `done`. -/
theorem gemini_simulated_streaming_witness :
    geminiChatStream c6Parse (.stream [c6Frame] none)
      = (simulateWords (splitOnChar ' ' "Hi there".toList)).map contentEv
        ++ [doneEv] :=
  gemini_simulated_streaming c6Parse c6Frame "Hi there".toList
    (by decide) (by decide) (by decide)

/-! ## Claim C10: non-empty `content` deltas -/

/-- A content event must carry a truthy (non-empty) delta. -/
def NonemptyContent (e : StreamChunk) : Prop :=
  e.type = .content → ∃ d, e.delta = some d ∧ d ≠ []

/-- The Gemini complete-response frame with text `"Hi "` (trailing space). -/
def c10Frame : List Char :=
  ("\x7b\"candidates\":[\x7b\"content\":\x7b\"parts\":[\x7b\"text\":\"Hi \"\x7d]\x7d,"
    ++ "\"finishReason\":\"STOP\"\x7d]\x7d").toList

/-- `JSON.parse` plus the two optional-chain extractions, on `c10Frame`. -/
def c10Parse : List Char → Option GeminiFrame := fun cs =>
  if cs = c10Frame then some ⟨some "Hi ".toList, some "STOP".toList⟩
  else none

/-- **C10, counterexample.** The Gemini simulated-streaming path *can* emit
a `content` event whose `delta` is the empty string: a complete response
whose text ends in a space (here `"Hi "`) yields the word list
`["Hi", ""]`, and the final empty word is emitted unconditionally. -/
theorem gemini_empty_delta_counterexample :
    contentEv [] ∈ geminiChatStream c10Parse (.stream [c10Frame] none)
      ∧ (contentEv []).type = .content ∧ (contentEv []).delta = some [] := by
  refine ⟨?_, rfl, rfl⟩
  decide

/-- Under the no-complete-response hypothesis, one frame only yields
non-empty `content` deltas (plus `done`). -/
theorem gFrame_nonempty (gparse : List Char → Option GeminiFrame)
    (hnc : ∀ frame gf, gparse frame = some gf →
      ¬((gf.text.getD [] ≠ []) ∧ gf.finishReason = some "STOP".toList)) :
    ∀ (hasRc : Bool) (frame : List Char),
      ∀ e ∈ (gFrame gparse hasRc frame).1, NonemptyContent e := by
  intro hasRc frame e he
  revert he
  cases hg : gparse frame with
  | none => simp [gFrame, hg]
  | some f =>
    simp only [gFrame, hg]
    rw [if_neg (hnc frame f hg)]
    cases hft : f.text with
    | none =>
      simp only [gDelta]
      by_cases hfin : f.finishReason = some "STOP".toList
          ∨ f.finishReason = some "MAX_TOKENS".toList
      · rw [if_pos hfin]
        intro he
        simp only [List.nil_append, List.mem_singleton] at he
        subst he
        intro h
        exact absurd h (by decide)
      · rw [if_neg hfin]
        simp
    | some d =>
      simp only [gDelta]
      by_cases hde : d = []
      · rw [if_pos hde]
        by_cases hfin : f.finishReason = some "STOP".toList
            ∨ f.finishReason = some "MAX_TOKENS".toList
        · rw [if_pos hfin]
          intro he
          simp only [List.nil_append, List.mem_singleton] at he
          subst he
          intro h
          exact absurd h (by decide)
        · rw [if_neg hfin]
          simp
      · rw [if_neg hde]
        by_cases hfin : f.finishReason = some "STOP".toList
            ∨ f.finishReason = some "MAX_TOKENS".toList
        · rw [if_pos hfin]
          intro he
          rcases List.mem_append.mp he with hh | hh
          · rw [List.mem_singleton] at hh
            subst hh
            exact fun _ => ⟨d, rfl, hde⟩
          · rw [List.mem_singleton] at hh
            subst hh
            intro h
            exact absurd h (by decide)
        · rw [if_neg hfin]
          intro he
          rw [List.mem_singleton] at he
          subst he
          exact fun _ => ⟨d, rfl, hde⟩

/-- Under the no-complete-response hypothesis, a list of frames only yields
non-empty `content` deltas (plus `done`). -/
theorem gFrames_nonempty (gparse : List Char → Option GeminiFrame)
    (hnc : ∀ frame gf, gparse frame = some gf →
      ¬((gf.text.getD [] ≠ []) ∧ gf.finishReason = some "STOP".toList)) :
    ∀ (frames : List (List Char)) (hasRc : Bool),
      ∀ e ∈ (gFrames gparse hasRc frames).1, NonemptyContent e := by
  intro frames
  induction frames with
  | nil => intro hasRc e he; simp [gFrames] at he
  | cons fr frs ih =>
    intro hasRc e
    simp only [gFrames]
    by_cases hstop : (gFrame gparse hasRc fr).2.1 = true
    · rw [if_pos hstop]
      exact gFrame_nonempty gparse hnc hasRc fr e
    · rw [if_neg hstop]
      intro he
      rcases List.mem_append.mp he with hh | hh
      · exact gFrame_nonempty gparse hnc hasRc fr e hh
      · exact ih (gFrame gparse hasRc fr).2.2 e hh

/-- Under the no-complete-response hypothesis, the Gemini read loop only
yields non-empty `content` deltas (plus `done`). -/
theorem gChunks_nonempty (gparse : List Char → Option GeminiFrame)
    (hnc : ∀ frame gf, gparse frame = some gf →
      ¬((gf.text.getD [] ≠ []) ∧ gf.finishReason = some "STOP".toList)) :
    ∀ (chunks : List (List Char)) (buffer : List Char) (hasRc : Bool),
      ∀ e ∈ (gChunks gparse buffer hasRc chunks).1, NonemptyContent e := by
  intro chunks
  induction chunks with
  | nil => intro buffer hasRc e he; simp [gChunks] at he
  | cons ch rest ih =>
    intro buffer hasRc e
    simp only [gChunks]
    by_cases hstop :
        (gFrames gparse hasRc (scanBuffer (buffer ++ ch)).1).2.1 = true
    · rw [if_pos hstop]
      exact gFrames_nonempty gparse hnc (scanBuffer (buffer ++ ch)).1 hasRc e
    · rw [if_neg hstop]
      intro he
      rcases List.mem_append.mp he with hh | hh
      · exact gFrames_nonempty gparse hnc (scanBuffer (buffer ++ ch)).1 hasRc e hh
      · exact ih (scanBuffer (buffer ++ ch)).2
          (gFrames gparse hasRc (scanBuffer (buffer ++ ch)).1).2.2 e hh

/-- **C10, amended.** Every `content` event of the OpenRouter adapter
carries a non-empty delta (absent or empty extracted text yields no event);
every `content` event of the Gemini adapter carries *some* delta, and it is
non-empty whenever the upstream never classifies as a complete
non-incremental response — only the simulated-streaming path for a
complete response can emit an empty final delta. -/
theorem content_delta_nonempty_spec :
    (∀ (pdelta : List Char → Option (List Char)) (input : UpInput),
      ∀ e ∈ openRouterChatStream pdelta input, NonemptyContent e)
    ∧ (∀ (gparse : List Char → Option GeminiFrame) (input : UpInput),
      ∀ e ∈ geminiChatStream gparse input,
        e.type = .content → ∃ d, e.delta = some d)
    ∧ (∀ (gparse : List Char → Option GeminiFrame) (input : UpInput),
      (∀ frame gf, gparse frame = some gf →
        ¬((gf.text.getD [] ≠ []) ∧ gf.finishReason = some "STOP".toList)) →
      ∀ e ∈ geminiChatStream gparse input, NonemptyContent e) := by
  refine ⟨?_, ?_, ?_⟩
  · intro pdelta input e he ht
    obtain ⟨cs, t, hcs, htm, heq⟩ := openRouter_shape pdelta input
    rw [heq] at he
    rcases List.mem_append.mp he with hh | hh
    · obtain ⟨d, hd, hde⟩ := hcs e hh
      exact ⟨d, by rw [hde]; rfl, hd⟩
    · rw [List.mem_singleton] at hh
      subst hh
      rcases htm with h | ⟨m, h⟩
      · rw [h] at ht; exact absurd ht (by decide)
      · rw [h] at ht; simp [errEv] at ht
  · intro gparse input e he ht
    obtain ⟨cs, t, hcs, htm, heq⟩ := gemini_shape gparse input
    rw [heq] at he
    rcases List.mem_append.mp he with hh | hh
    · obtain ⟨d, hd⟩ := hcs e hh
      exact ⟨d, by rw [hd]; rfl⟩
    · rw [List.mem_singleton] at hh
      subst hh
      rcases htm with h | ⟨m, h⟩
      · rw [h] at ht; exact absurd ht (by decide)
      · rw [h] at ht; simp [errEv] at ht
  · intro gparse input hnc e he
    cases input with
    | setupFail msg =>
      simp only [geminiChatStream, List.mem_singleton] at he
      subst he
      intro h
      simp [errEv] at h
    | stream chunks readFail =>
      revert he
      simp only [geminiChatStream]
      by_cases hstop : (gChunks gparse [] false chunks).2.1 = true
      · rw [if_pos hstop]
        exact gChunks_nonempty gparse hnc chunks [] false e
      · rw [if_neg hstop]
        cases readFail with
        | some msg =>
          intro he
          rcases List.mem_append.mp he with hh | hh
          · exact gChunks_nonempty gparse hnc chunks [] false e hh
          · rw [List.mem_singleton] at hh
            subst hh
            intro h
            simp [errEv] at h
        | none =>
          by_cases hrc : (gChunks gparse [] false chunks).2.2 = true
          · rw [if_pos hrc]
            intro he
            rcases List.mem_append.mp he with hh | hh
            · exact gChunks_nonempty gparse hnc chunks [] false e hh
            · rw [List.mem_singleton] at hh
              subst hh
              intro h
              exact absurd h (by decide)
          · rw [if_neg hrc]
            intro he
            rcases List.mem_append.mp he with hh | hh
            · exact gChunks_nonempty gparse hnc chunks [] false e hh
            · rw [List.mem_singleton] at hh
              subst hh
              intro h
              exact absurd h (by decide)

/-- Witness for C10 (amended): a concrete OpenRouter stream, and a concrete
Gemini stream with only incremental frames, carry only non-empty deltas. -/
theorem content_delta_nonempty_spec_witness :
    (∀ e ∈ openRouterChatStream (fun _ => some "x".toList)
      (.stream ["data: y\n".toList] none), NonemptyContent e)
    ∧ (∀ e ∈ geminiChatStream (fun _ => none) (.stream ["\x7b\x7d".toList] none),
      NonemptyContent e) :=
  ⟨content_delta_nonempty_spec.1 (fun _ => some "x".toList)
      (.stream ["data: y\n".toList] none),
   content_delta_nonempty_spec.2.2 (fun _ => none) (.stream ["\x7b\x7d".toList] none)
      (fun frame gf h => absurd h (by simp))⟩

/-! ## Rate limiter lemmas and claim C4 -/

/-- A call inside the current window (`now ≤ resetTime`) below the limit:
increment and allow. -/
theorem rateLimit_below (r : RLRecord) (now l w : Nat)
    (hin : ¬ now > r.resetTime) (hlt : r.count < l) :
    rateLimit (some r) now l w
      = (⟨true, l - (r.count + 1), r.resetTime⟩, ⟨r.count + 1, r.resetTime⟩) := by
  simp only [rateLimit, if_neg hin, Option.getD_some, if_neg (Nat.not_le.mpr hlt)]

/-- A call inside the current window at (or beyond) the limit: refuse with
`remaining = 0` and leave the record unchanged. -/
theorem rateLimit_atLimit (r : RLRecord) (now l w : Nat)
    (hin : ¬ now > r.resetTime) (hge : r.count ≥ l) :
    rateLimit (some r) now l w = (⟨false, 0, r.resetTime⟩, r) := by
  simp only [rateLimit, if_neg hin, Option.getD_some, if_pos hge]

/-- A run of calls all falling inside an existing window: the `i`-th call
succeeds exactly while the count is still below the limit, and the record's
count saturates at the limit. -/
theorem runCalls_inWindow (l w rt : Nat) :
    ∀ (ts : List Nat) (c : Nat), c ≤ l → (∀ t ∈ ts, t ≤ rt) →
      runCalls l w (some ⟨c, rt⟩) ts
        = ((List.range ts.length).map
            (fun i => if c + i < l then (⟨true, l - (c + i + 1), rt⟩ : RLResult)
              else ⟨false, 0, rt⟩),
           some ⟨min (c + ts.length) l, rt⟩) := by
  intro ts
  induction ts with
  | nil =>
    intro c hc _
    simp [runCalls, Nat.min_eq_left hc]
  | cons t ts ih =>
    intro c hc hts
    have hin : ¬ t > rt := Nat.not_lt.mpr (hts t (by simp))
    by_cases hlt : c < l
    · rw [runCalls, rateLimit_below ⟨c, rt⟩ t l w hin hlt,
        ih (c + 1) hlt (fun x hx => hts x (by simp [hx]))]
      simp only [List.length_cons, List.range_succ_eq_map, List.map_cons,
        List.map_map, Prod.mk.injEq, List.cons.injEq]
      refine ⟨⟨by rw [if_pos (by omega)], ?_⟩, by rw [Option.some.injEq]; congr 1 <;> omega⟩
      refine List.map_congr_left (fun i _ => ?_)
      simp only [Function.comp]
      by_cases h2 : c + 1 + i < l
      · rw [if_pos h2, if_pos (by omega)]
        congr 2
        omega
      · rw [if_neg h2, if_neg (by omega)]
    · rw [runCalls, rateLimit_atLimit ⟨c, rt⟩ t l w hin (Nat.not_lt.mp hlt),
        ih c hc (fun x hx => hts x (by simp [hx]))]
      simp only [List.length_cons, List.range_succ_eq_map, List.map_cons,
        List.map_map, Prod.mk.injEq, List.cons.injEq]
      refine ⟨⟨by rw [if_neg (by omega)], ?_⟩, by rw [Option.some.injEq]; congr 1 <;> omega⟩
      refine List.map_congr_left (fun i _ => ?_)
      simp only [Function.comp]
      rw [if_neg (by omega), if_neg (by omega)]

/-- **C4.** The rate limiter (`src/lib/rate-limit.ts`): an expired record is
discarded and a fresh window starts (count 0, `resetTime = now + windowMs`);
a call at the limit is refused with `remaining = 0` and leaves the count
unchanged; any other call increments and is allowed with
`remaining = limit - count`; consequently exactly `limit` calls inside one
window succeed and the next one fails with `remaining = 0` and a
`resetTime` at least every call time in the window. -/
theorem rateLimit_fixedWindow_spec :
    (∀ (r : RLRecord) (now l w : Nat), now > r.resetTime →
      rateLimit (some r) now l w = rateLimit none now l w)
    ∧ (∀ (now l w : Nat), (rateLimit none now l w).2.resetTime = now + w
        ∧ (rateLimit none now l w).2.count = if 0 < l then 1 else 0)
    ∧ (∀ (r : RLRecord) (now l w : Nat), ¬ now > r.resetTime → r.count ≥ l →
        rateLimit (some r) now l w = (⟨false, 0, r.resetTime⟩, r))
    ∧ (∀ (r : RLRecord) (now l w : Nat), ¬ now > r.resetTime → r.count < l →
        rateLimit (some r) now l w
          = (⟨true, l - (r.count + 1), r.resetTime⟩, ⟨r.count + 1, r.resetTime⟩))
    ∧ (∀ (l w t0 : Nat) (rest : List Nat), rest.length = l →
        (∀ t ∈ rest, t ≤ t0 + w) →
        (runCalls l w none (t0 :: rest)).1
          = (List.range l).map (fun i => (⟨true, l - (i + 1), t0 + w⟩ : RLResult))
            ++ [⟨false, 0, t0 + w⟩]) := by
  refine ⟨?_, ?_, rateLimit_atLimit, rateLimit_below, ?_⟩
  · intro r now l w hexp
    simp only [rateLimit, if_pos hexp]
  · intro now l w
    by_cases h : 0 < l
    · simp [rateLimit, Nat.not_le.mpr h, h]
    · simp only [Nat.not_lt, Nat.le_zero] at h
      simp [rateLimit, h]
  · intro l w t0 rest hlen hrest
    cases l with
    | zero =>
      rw [List.length_eq_zero] at hlen
      subst hlen
      simp [runCalls, rateLimit]
    | succ k =>
      rw [runCalls]
      have h0 : rateLimit none t0 (k + 1) w
          = (⟨true, k + 1 - (0 + 1), t0 + w⟩, ⟨0 + 1, t0 + w⟩) := by
        simp [rateLimit]
      rw [h0, runCalls_inWindow (k + 1) w (t0 + w) rest 1 (by omega)
        (fun t ht => hrest t ht)]
      simp only [hlen]
      have htail : List.map
          (fun i => if 1 + i < k + 1 then
            (⟨true, k + 1 - (1 + i + 1), t0 + w⟩ : RLResult)
            else ⟨false, 0, t0 + w⟩) (List.range (k + 1))
          = List.map (fun i => (⟨true, k + 1 - (i + 1), t0 + w⟩ : RLResult))
              (List.map Nat.succ (List.range k))
            ++ [⟨false, 0, t0 + w⟩] := by
        rw [List.range_succ, List.map_append, List.map_cons, List.map_nil,
          if_neg (by omega), List.map_map]
        refine congrArg₂ (· ++ ·) ?_ rfl
        refine List.map_congr_left (fun i hi => ?_)
        rw [List.mem_range] at hi
        simp only [Function.comp]
        rw [if_pos (by omega)]
        congr 2
        omega
      rw [htail]
      conv_rhs => rw [List.range_succ_eq_map]
      rw [List.map_cons, List.cons_append]

/-- Witness for C4: the 11th call within one minute at `limit = 10` is
refused with `remaining = 0` (and the ten calls before it succeed). -/
theorem rateLimit_fixedWindow_spec_witness :
    (runCalls 10 60000 none (0 :: List.replicate 10 0)).1
      = (List.range 10).map (fun i => (⟨true, 10 - (i + 1), 0 + 60000⟩ : RLResult))
        ++ [⟨false, 0, 0 + 60000⟩] :=
  rateLimit_fixedWindow_spec.2.2.2.2 10 60000 0 (List.replicate 10 0)
    (by decide) (by decide)

/-! ## Orchestrator accumulator lemmas and claim C5 -/

/-- Relaying a sequence of `content` events carrying non-empty deltas
appends the deltas, in order, to the accumulator. -/
theorem relayLoop_deltas_append (inp : OrchInput) :
    ∀ (ds : List (List Char)) (acc : List Char), (∀ d ∈ ds, d ≠ []) →
      (relayLoop inp acc (ds.map contentEv)).2.1 = acc ++ ds.flatten := by
  intro ds
  induction ds with
  | nil => intro acc _; simp [relayLoop]
  | cons d ds ih =>
    intro acc hds
    rw [List.map_cons, relayLoop, if_pos ⟨rfl, by simpa using hds d (by simp)⟩]
    simp only [contentEv, Option.getD_some]
    rw [ih (acc ++ d) (fun x hx => hds x (by simp [hx]))]
    simp [List.flatten_cons, List.append_assoc]

/-- A `content` event without a truthy `delta` — in particular one carrying
only a cumulative `content` payload — is ignored by the relay loop: nothing
is relayed and the accumulator is left unchanged. -/
theorem relayLoop_skips_deltaless (inp : OrchInput) (acc : List Char)
    (e : StreamChunk) (rest : List StreamChunk)
    (htype : e.type = .content) (hdelta : e.delta.getD [] = []) :
    relayLoop inp acc (e :: rest) = relayLoop inp acc rest := by
  rw [relayLoop, if_neg (by simp [hdelta]), if_neg (by simp [htype]),
    if_neg (by simp [htype])]

/-- A concrete request context whose adapter stream carries the deltas
`"Hello"`, `" world"`, then a cumulative-style `content` event
`"Hello world!"` without a delta, then `done`. -/
def c5Input : OrchInput :=
  { conversationId := "c1".toList
    userId := "u1".toList
    contextMessages := []
    userMessage := "hi".toList
    model := sampleModel
    adapterEvents :=
      [contentEv "Hello".toList, contentEv " world".toList,
       { type := .content, content := some "Hello world!".toList }, doneEv] }

/-- **C5, counterexample.** The orchestrator's accumulator does *not*
replace its value with a cumulative-style `content` payload: after the
deltas `"Hello"`, `" world"` and a cumulative event `"Hello world!"`
carrying no delta, the accumulator still holds `"Hello world"` — the
cumulative event is ignored, not applied. -/
theorem orchestrator_accumulator_counterexample :
    (relayRes c5Input).2.1 = "Hello world".toList
      ∧ ¬ (relayRes c5Input).2.1 = "Hello world!".toList := by
  constructor
  · decide
  · decide

/-- **C5, amended.** Relaying `content` events carrying deltas appends the
deltas in order (so `["Hello", " world"]` accumulates to `"Hello world"`);
a `content` event carrying a full cumulative string but no `delta` is
ignored — the accumulator keeps its value rather than being replaced. -/
theorem orchestrator_accumulator_spec :
    (∀ (inp : OrchInput) (ds : List (List Char)) (acc : List Char),
      (∀ d ∈ ds, d ≠ []) →
      (relayLoop inp acc (ds.map contentEv)).2.1 = acc ++ ds.flatten)
    ∧ (∀ (inp : OrchInput) (acc : List Char) (e : StreamChunk)
        (rest : List StreamChunk), e.type = .content → e.delta.getD [] = [] →
        relayLoop inp acc (e :: rest) = relayLoop inp acc rest) :=
  ⟨relayLoop_deltas_append, relayLoop_skips_deltaless⟩

/-- Witness for C5 (amended): the concrete deltas `["Hello", " world"]`
accumulate to `"Hello world"`, and the concrete cumulative event
`"Hello world!"` (no delta) is skipped by the loop. -/
theorem orchestrator_accumulator_spec_witness :
    (relayLoop c5Input [] (["Hello".toList, " world".toList].map contentEv)).2.1
        = [] ++ ["Hello".toList, " world".toList].flatten
      ∧ relayLoop c5Input "Hello world".toList
          [{ type := .content, content := some "Hello world!".toList }, doneEv]
        = relayLoop c5Input "Hello world".toList [doneEv] :=
  ⟨orchestrator_accumulator_spec.1 c5Input ["Hello".toList, " world".toList] []
      (by decide),
   orchestrator_accumulator_spec.2 c5Input "Hello world".toList
      { type := .content, content := some "Hello world!".toList } [doneEv]
      rfl rfl⟩


/-! ## Frame-scanner metatheory

Basic algebra of `scanPass`, the buffer-stability invariant (claim C7) and
chunk-boundary independence on serialized JSON objects (claim C3). -/

/-- `scanPass` over a concatenation: states compose, frame lists append. -/
theorem scanPass_append (a b : List Char) :
    ∀ st : ScanSt, scanPass st (a ++ b)
      = ((scanPass (scanPass st a).1 b).1,
         (scanPass st a).2 ++ (scanPass (scanPass st a).1 b).2) := by
  induction a with
  | nil => intro st; simp [scanPass]
  | cons c a ih =>
    intro st
    rw [List.cons_append, scanPass, scanPass, ih (scanStep st c).1]
    simp [List.append_assoc]

/-- A single scan step either extracts no frame and pushes the character
onto `seenRev`, or extracts a frame and resets the scan state. -/
theorem scanStep_cases (st : ScanSt) (c : Char) :
    ((scanStep st c).2 = none
      ∧ (scanStep st c).1.seenRev = c :: st.seenRev)
    ∨ ((∃ f, (scanStep st c).2 = some f)
      ∧ (scanStep st c).1 = scanInit
      ∧ st.inString = false ∧ st.escaped = false) := by
  unfold scanStep
  split_ifs with h1 h2 h3 h4 h5 h6 h7 <;>
    simp_all [scanInit] <;>
    simp_all [ScanSt.ext_iff]

/-- If a pass extracts no frame, the buffer after it is the old buffer plus
the scanned characters (nothing was consumed). -/
theorem scanPass_noframes_seen :
    ∀ (cs : List Char) (st : ScanSt), (scanPass st cs).2 = [] →
      (scanPass st cs).1.seenRev = cs.reverse ++ st.seenRev := by
  intro cs
  induction cs with
  | nil => intro st _; simp [scanPass]
  | cons c cs ih =>
    intro st h
    rw [scanPass] at h ⊢
    rcases scanStep_cases st c with ⟨hn, hseen⟩ | ⟨⟨f, hf⟩, _, _, _⟩
    · simp only [hn, Option.toList_none, List.nil_append] at h ⊢
      rw [ih _ h, hseen]
      simp
    · rw [hf] at h
      simp at h

/-- Rescanning the buffer left over by a scan pass extracts nothing and
reproduces the same scan state: the leftover never contains a complete
frame. -/
theorem scanPass_leftover_stable :
    ∀ cs : List Char,
      scanPass scanInit ((scanPass scanInit cs).1.seenRev.reverse)
        = ((scanPass scanInit cs).1, []) := by
  intro cs
  induction cs using List.reverseRecOn with
  | nil => simp [scanPass]
  | append_singleton cs c ih =>
    rw [scanPass_append]
    rcases scanStep_cases (scanPass scanInit cs).1 c with ⟨hn, hseen⟩ |
      ⟨⟨f, hf⟩, hst, _, _⟩
    · have hpass : scanPass (scanPass scanInit cs).1 [c]
          = ((scanStep (scanPass scanInit cs).1 c).1, []) := by
        rw [scanPass, scanPass]
        simp [hn]
      rw [hpass]
      simp only [hseen, List.reverse_cons]
      rw [scanPass_append, ih]
      rw [hpass]
      simp
    · have hpass : scanPass (scanPass scanInit cs).1 [c]
          = (scanInit, [f]) := by
        rw [scanPass, scanPass]
        simp [hf, hst]
      rw [hpass]
      simp [scanPass, scanInit]

/-- Buffer stability, in `scanBuffer` terms: rescanning a pass's leftover
yields no frame and leaves the leftover unchanged. -/
theorem scanBuffer_leftover_stable (buf : List Char) :
    scanBuffer (scanBuffer buf).2 = ([], (scanBuffer buf).2) := by
  simp only [scanBuffer]
  rw [scanPass_leftover_stable buf]

/-- The leftover of `processChunks` is scan-stable as well. -/
theorem processChunks_leftover_stable (chunks : List (List Char)) :
    scanBuffer (processChunks chunks).2 = ([], (processChunks chunks).2) := by
  suffices h : ∀ (acc : List (List Char) × List Char),
      scanBuffer acc.2 = ([], acc.2) →
      scanBuffer (chunks.foldl
        (fun acc ch =>
          let p := scanBuffer (acc.2 ++ ch)
          (acc.1 ++ p.1, p.2)) acc).2
        = ([], (chunks.foldl
            (fun acc ch =>
              let p := scanBuffer (acc.2 ++ ch)
              (acc.1 ++ p.1, p.2)) acc).2) by
    exact h ([], []) (by simp [scanBuffer, scanPass, scanInit])
  induction chunks with
  | nil => intro acc hacc; simpa using hacc
  | cons ch rest ih =>
    intro acc hacc
    rw [List.foldl_cons]
    exact ih _ (scanBuffer_leftover_stable (acc.2 ++ ch))

/-- A character with no role in the scan: not a quote, escape or brace. -/
def isPlainChar (c : Char) : Prop :=
  c ≠ '"' ∧ c ≠ '\\' ∧ c ≠ '{' ∧ c ≠ '}'

instance (c : Char) : Decidable (isPlainChar c) := by
  unfold isPlainChar
  infer_instance

/-- Plain characters (outside strings) are only accumulated. -/
theorem scanStep_plain (st : ScanSt) (c : Char) (hc : isPlainChar c)
    (hesc : st.escaped = false) :
    scanStep st c
      = ({ st with seenRev := c :: st.seenRev, curRev := c :: st.curRev },
        none) := by
  obtain ⟨h1, h2, h3, h4⟩ := hc
  unfold scanStep
  rw [if_neg (by simp [hesc]), if_neg (by simp [h2]), if_neg h1,
    if_neg (by simp [h3]), if_neg (by simp [h4])]

/-- Characters inside a string (other than quote and backslash) are only
accumulated. -/
theorem scanStep_inStringChar (st : ScanSt) (c : Char)
    (hstr : st.inString = true) (hesc : st.escaped = false)
    (hq : c ≠ '"') (hbs : c ≠ '\\') :
    scanStep st c
      = ({ st with seenRev := c :: st.seenRev, curRev := c :: st.curRev },
        none) := by
  unfold scanStep
  rw [if_neg (by simp [hesc]), if_neg (by simp [hbs]), if_neg hq,
    if_neg (by simp [hstr]), if_neg (by simp [hstr])]

/-- A backslash inside a string sets the escape flag. -/
theorem scanStep_backslash (st : ScanSt) (hstr : st.inString = true)
    (hesc : st.escaped = false) :
    scanStep st '\\'
      = ({ st with
            escaped := true
            seenRev := '\\' :: st.seenRev
            curRev := '\\' :: st.curRev }, none) := by
  unfold scanStep
  rw [if_neg (by simp [hesc]), if_pos ⟨rfl, by simp [hstr]⟩]

/-- Any character consumed while the escape flag is set clears it and is
accumulated. -/
theorem scanStep_escaped (st : ScanSt) (c : Char) (hesc : st.escaped = true) :
    scanStep st c
      = ({ st with
            escaped := false
            seenRev := c :: st.seenRev
            curRev := c :: st.curRev }, none) := by
  unfold scanStep
  rw [if_pos (by simp [hesc])]

/-- An unescaped quote toggles the in-string flag. -/
theorem scanStep_quote (st : ScanSt) (hesc : st.escaped = false) :
    scanStep st '"'
      = ({ st with
            inString := !st.inString
            seenRev := '"' :: st.seenRev
            curRev := '"' :: st.curRev }, none) := by
  unfold scanStep
  rw [if_neg (by simp [hesc]), if_neg (by simp), if_pos rfl]

/-- An opening brace outside a string at positive depth (inside a frame)
increments the depth and accumulates. -/
theorem scanStep_openBrace_pos (st : ScanSt) (hstr : st.inString = false)
    (hesc : st.escaped = false) (hd : ¬ st.depth = 0) :
    scanStep st '{'
      = ({ st with
            depth := st.depth + 1
            seenRev := '{' :: st.seenRev
            curRev := '{' :: st.curRev }, none) := by
  unfold scanStep
  rw [if_neg (by simp [hesc]), if_neg (by simp), if_neg (by simp),
    if_pos ⟨by simp [hstr], rfl⟩, if_neg hd]

/-- An opening brace outside a string at depth zero starts a new frame
candidate (`startIndex = i`). -/
theorem scanStep_openBrace_zero (st : ScanSt) (hstr : st.inString = false)
    (hesc : st.escaped = false) (hd : st.depth = 0) :
    scanStep st '{'
      = ({ st with
            depth := st.depth + 1
            seenRev := '{' :: st.seenRev
            curRev := ['{'] }, none) := by
  unfold scanStep
  rw [if_neg (by simp [hesc]), if_neg (by simp), if_neg (by simp),
    if_pos ⟨by simp [hstr], rfl⟩, if_pos hd]

/-- A closing brace outside a string at depth above one decrements the depth
and accumulates. -/
theorem scanStep_closeBrace_pos (st : ScanSt) (hstr : st.inString = false)
    (hesc : st.escaped = false) (hd : ¬ st.depth - 1 = 0) :
    scanStep st '}'
      = ({ st with
            depth := st.depth - 1
            seenRev := '}' :: st.seenRev
            curRev := '}' :: st.curRev }, none) := by
  unfold scanStep
  rw [if_neg (by simp [hesc]), if_neg (by simp), if_neg (by simp),
    if_neg (by simp), if_pos ⟨by simp [hstr], rfl⟩, if_neg hd]

/-- A closing brace outside a string at depth one completes a frame: the
scan state resets and `buffer.slice(startIndex, i + 1)` is extracted. -/
theorem scanStep_closeBrace_one (st : ScanSt) (hstr : st.inString = false)
    (hesc : st.escaped = false) (hd : st.depth - 1 = 0) :
    scanStep st '}' = (scanInit, some (('}' :: st.curRev).reverse)) := by
  unfold scanStep
  rw [if_neg (by simp [hesc]), if_neg (by simp), if_neg (by simp),
    if_neg (by simp), if_pos ⟨by simp [hstr], rfl⟩, if_pos hd]
  rw [scanInit.eq_def]
  simp [hstr, hesc]

/-- A character list is *scan-neutral* when, scanned from any mid-frame
state (outside a string, no escape pending, depth at least one), it only
accumulates: same depth and flags afterwards, no frame extracted. -/
def ScanNeutral (cs : List Char) : Prop :=
  ∀ st : ScanSt, st.inString = false → st.escaped = false → 1 ≤ st.depth →
    scanPass st cs
      = ({ st with
            seenRev := cs.reverse ++ st.seenRev
            curRev := cs.reverse ++ st.curRev }, [])

/-- A character list is *prefix-frame-free* when scanning any of its
prefixes from a mid-frame state extracts no frame. -/
def ScanNF (cs : List Char) : Prop :=
  ∀ st : ScanSt, st.inString = false → st.escaped = false → 1 ≤ st.depth →
    ∀ p q : List Char, p ++ q = cs → (scanPass st p).2 = []

/-- Scan-neutral and prefix-frame-free. -/
def ScanSafe (cs : List Char) : Prop := ScanNeutral cs ∧ ScanNF cs

theorem scanSafe_nil : ScanSafe [] := by
  constructor
  · intro st h1 h2 h3
    simp [scanPass]
  · intro st h1 h2 h3 p q hpq
    rw [List.append_eq_nil] at hpq
    rw [hpq.1]
    rfl

theorem scanSafe_append {xs ys : List Char} (hx : ScanSafe xs)
    (hy : ScanSafe ys) : ScanSafe (xs ++ ys) := by
  constructor
  · intro st h1 h2 h3
    rw [scanPass_append, hx.1 st h1 h2 h3]
    dsimp only
    rw [hy.1 { st with
        seenRev := xs.reverse ++ st.seenRev
        curRev := xs.reverse ++ st.curRev } h1 h2 h3]
    simp [List.append_assoc]
  · intro st h1 h2 h3 p q hpq
    rcases List.append_eq_append_iff.mp hpq with ⟨p2, hxs, hq⟩ | ⟨q2, hp, hys⟩
    · exact hx.2 st h1 h2 h3 p p2 hxs.symm
    · subst hp
      rw [scanPass_append, hx.1 st h1 h2 h3]
      dsimp only
      rw [hy.2 { st with
          seenRev := xs.reverse ++ st.seenRev
          curRev := xs.reverse ++ st.curRev } h1 h2 h3 q2 q hys.symm]
      rfl

/-- A run of plain characters, outside a string, only accumulates. -/
theorem scanPass_plainList :
    ∀ cs : List Char, (∀ c ∈ cs, isPlainChar c) →
      ∀ st : ScanSt, st.inString = false → st.escaped = false →
        scanPass st cs
          = ({ st with
                seenRev := cs.reverse ++ st.seenRev
                curRev := cs.reverse ++ st.curRev }, []) := by
  intro cs
  induction cs with
  | nil => intro _ st _ _; simp [scanPass]
  | cons c cs ih =>
    intro h st h1 h2
    rw [scanPass, scanStep_plain st c (h c (by simp)) h2]
    dsimp only
    rw [ih (fun x hx => h x (by simp [hx]))
      { st with seenRev := c :: st.seenRev, curRev := c :: st.curRev } h1 h2]
    simp [List.append_assoc]

/-- Plain runs are scan-safe. -/
theorem plainList_scanSafe (cs : List Char) (h : ∀ c ∈ cs, isPlainChar c) :
    ScanSafe cs := by
  constructor
  · intro st h1 h2 _
    exact scanPass_plainList cs h st h1 h2
  · intro st h1 h2 _ p q hpq
    rw [scanPass_plainList p
      (fun c hc => h c (by rw [← hpq]; exact List.mem_append_left q hc))
      st h1 h2]

/-- One escaped character of string content only accumulates (and leaves
the string open with no escape pending). -/
theorem scanPass_escChar (c : Char) (st : ScanSt) (hstr : st.inString = true)
    (hesc : st.escaped = false) :
    scanPass st (escapeChar c)
      = ({ st with
            seenRev := (escapeChar c).reverse ++ st.seenRev
            curRev := (escapeChar c).reverse ++ st.curRev }, []) := by
  by_cases hc : c = '"' ∨ c = '\\'
  · rw [escapeChar, if_pos hc, scanPass, scanStep_backslash st hstr hesc]
    dsimp only
    rw [scanPass, scanStep_escaped
      { st with
          escaped := true
          seenRev := '\\' :: st.seenRev
          curRev := '\\' :: st.curRev } c rfl]
    dsimp only
    rw [scanPass]
    simp [hesc]
  · push_neg at hc
    rw [escapeChar, if_neg (by push_neg; exact hc), scanPass,
      scanStep_inStringChar st c hstr hesc hc.1 hc.2]
    dsimp only
    rw [scanPass]
    simp

/-- Escaped string content only accumulates. -/
theorem scanPass_escStr :
    ∀ (s : List Char) (st : ScanSt), st.inString = true → st.escaped = false →
      scanPass st (escapeStr s)
        = ({ st with
              seenRev := (escapeStr s).reverse ++ st.seenRev
              curRev := (escapeStr s).reverse ++ st.curRev }, []) := by
  intro s
  induction s with
  | nil => intro st _ _; simp [escapeStr, scanPass]
  | cons c s ih =>
    intro st h1 h2
    rw [escapeStr, scanPass_append, scanPass_escChar c st h1 h2]
    dsimp only
    rw [ih { st with
        seenRev := (escapeChar c).reverse ++ st.seenRev
        curRev := (escapeChar c).reverse ++ st.curRev } h1 h2]
    simp [List.append_assoc]

/-- No prefix of escaped string content extracts a frame. -/
theorem escStr_prefix_noframes :
    ∀ (s p q : List Char), p ++ q = escapeStr s →
      ∀ st : ScanSt, st.inString = true → st.escaped = false →
        (scanPass st p).2 = [] := by
  intro s
  induction s with
  | nil =>
    intro p q hpq st _ _
    rw [escapeStr] at hpq
    rw [List.append_eq_nil] at hpq
    rw [hpq.1]
    rfl
  | cons c s ih =>
    intro p q hpq st h1 h2
    rw [escapeStr] at hpq
    rcases List.append_eq_append_iff.mp hpq with ⟨p2, hec, hq2⟩ | ⟨q2, hp, hrest⟩
    · by_cases hc : c = '"' ∨ c = '\\'
      · rw [escapeChar, if_pos hc] at hec
        rcases p with _ | ⟨x, p3⟩
        · rfl
        · rcases p3 with _ | ⟨y, rest⟩
          · have hx : '\\' = x := by simpa using congrArg List.head? hec
            subst hx
            rw [scanPass, scanStep_backslash st h1 h2]
            rfl
          · have hec2 : '\\' = x ∧ c = y ∧ ([] : List Char) = rest ++ p2 := by
              simpa using hec
            obtain ⟨hx, hy, hnil⟩ := hec2
            have hr : rest = [] := (List.append_eq_nil.mp hnil.symm).1
            subst hx
            subst hy
            subst hr
            rw [scanPass, scanStep_backslash st h1 h2]
            dsimp only
            rw [scanPass, scanStep_escaped
              { st with
                  escaped := true
                  seenRev := '\\' :: st.seenRev
                  curRev := '\\' :: st.curRev } c rfl]
            rfl
      · push_neg at hc
        rw [escapeChar, if_neg (by push_neg; exact hc)] at hec
        rcases p with _ | ⟨x, p3⟩
        · rfl
        · rcases p3 with _ | ⟨y, rest⟩
          · have hx : c = x := by simpa using congrArg List.head? hec
            subst hx
            rw [scanPass, scanStep_inStringChar st c h1 h2 hc.1 hc.2]
            rfl
          · exfalso
            have h0 := congrArg List.length hec
            simp at h0
    · subst hp
      rw [scanPass_append, scanPass_escChar c st h1 h2]
      dsimp only
      rw [ih q2 q hrest.symm { st with
          seenRev := (escapeChar c).reverse ++ st.seenRev
          curRev := (escapeChar c).reverse ++ st.curRev } h1 h2]
      rfl

/-- A JSON string literal (quotes plus escaped content) is scan-safe: the
in-string flag shields every brace inside it from the depth count. -/
theorem strLit_scanSafe (s : List Char) :
    ScanSafe ('"' :: escapeStr s ++ ['"']) := by
  constructor
  · intro st h1 h2 h3
    rw [List.cons_append, scanPass, scanStep_quote st h2]
    dsimp only
    rw [scanPass_append, scanPass_escStr s
      { st with
          inString := !st.inString
          seenRev := '"' :: st.seenRev
          curRev := '"' :: st.curRev } (by simp [h1]) (by simp [h2])]
    dsimp only
    rw [scanPass, scanStep_quote
      { st with
          inString := !st.inString
          seenRev := (escapeStr s).reverse ++ '"' :: st.seenRev
          curRev := (escapeStr s).reverse ++ '"' :: st.curRev } (by simp [h2])]
    dsimp only
    rw [scanPass]
    simp [h1, List.append_assoc]
  · intro st h1 h2 h3 p q hpq
    rw [List.cons_append] at hpq
    rcases p with _ | ⟨x, p3⟩
    · rfl
    · have hx : x = '"' ∧ p3 ++ q = escapeStr s ++ ['"'] := by
        constructor
        · simpa using congrArg List.head? hpq
        · simpa using congrArg List.tail hpq
      obtain ⟨hx1, hx2⟩ := hx
      subst hx1
      rw [scanPass, scanStep_quote st h2]
      dsimp only
      have hin : (!st.inString) = true := by simp [h1]
      have hesc2 : st.escaped = false := h2
      rcases List.append_eq_append_iff.mp hx2 with ⟨p4, hesc', _⟩ | ⟨q2, hp3, hq'⟩
      · rw [escStr_prefix_noframes s p3 p4 hesc'.symm
          { st with
              inString := !st.inString
              seenRev := '"' :: st.seenRev
              curRev := '"' :: st.curRev } hin hesc2]
        rfl
      · rcases q2 with _ | ⟨y, q3⟩
        · simp only [List.append_nil] at hp3
          subst hp3
          rw [scanPass_escStr s
            { st with
                inString := !st.inString
                seenRev := '"' :: st.seenRev
                curRev := '"' :: st.curRev } hin hesc2]
          rfl
        · have hy : y = '"' ∧ q3 = [] := by
            constructor
            · simpa using (congrArg List.head? hq').symm
            · rcases q3 with _ | ⟨z, zs⟩
              · rfl
              · exfalso
                have h0 := congrArg List.length hq'
                simp at h0
          obtain ⟨hy1, hy2⟩ := hy
          subst hy1
          subst hy2
          subst hp3
          rw [scanPass_append, scanPass_escStr s
            { st with
                inString := !st.inString
                seenRev := '"' :: st.seenRev
                curRev := '"' :: st.curRev } hin hesc2]
          dsimp only
          rw [scanPass, scanStep_quote
            { st with
                inString := !st.inString
                seenRev := (escapeStr s).reverse ++ '"' :: st.seenRev
                curRev := (escapeStr s).reverse ++ '"' :: st.curRev }
              (by simp [h2])]
          rfl

/-- Wrapping a scan-safe body in braces is scan-safe at depth at least one:
the inner braces never bring the depth back to zero. -/
theorem scanSafe_braces {body : List Char} (h : ScanSafe body) :
    ScanSafe ('{' :: body ++ ['}']) := by
  constructor
  · intro st h1 h2 h3
    rw [List.cons_append, scanPass, scanStep_openBrace_pos st h1 h2 (by omega)]
    dsimp only
    rw [scanPass_append, h.1
      { st with
          depth := st.depth + 1
          seenRev := '{' :: st.seenRev
          curRev := '{' :: st.curRev } h1 h2 (by dsimp only; omega)]
    dsimp only
    rw [scanPass, scanStep_closeBrace_pos
      { st with
          depth := st.depth + 1
          seenRev := body.reverse ++ '{' :: st.seenRev
          curRev := body.reverse ++ '{' :: st.curRev } h1 h2 (by dsimp only; omega)]
    dsimp only
    rw [scanPass]
    refine Prod.ext ?_ rfl
    simp [ScanSt.mk.injEq, List.append_assoc]
  · intro st h1 h2 h3 p q hpq
    rw [List.cons_append] at hpq
    rcases p with _ | ⟨x, p3⟩
    · rfl
    · have hx : x = '{' ∧ p3 ++ q = body ++ ['}'] := by
        constructor
        · simpa using congrArg List.head? hpq
        · simpa using congrArg List.tail hpq
      obtain ⟨hx1, hx2⟩ := hx
      subst hx1
      rw [scanPass, scanStep_openBrace_pos st h1 h2 (by omega)]
      dsimp only
      rcases List.append_eq_append_iff.mp hx2 with ⟨p4, hbody, _⟩ | ⟨q2, hp3, hq'⟩
      · rw [h.2
          { st with
              depth := st.depth + 1
              seenRev := '{' :: st.seenRev
              curRev := '{' :: st.curRev } h1 h2 (by dsimp only; omega) p3 p4 hbody.symm]
        rfl
      · rcases q2 with _ | ⟨y, q3⟩
        · simp only [List.append_nil] at hp3
          subst hp3
          rw [h.1
            { st with
                depth := st.depth + 1
                seenRev := '{' :: st.seenRev
                curRev := '{' :: st.curRev } h1 h2 (by dsimp only; omega)]
          rfl
        · have hy : y = '}' ∧ q3 = [] := by
            constructor
            · simpa using (congrArg List.head? hq').symm
            · rcases q3 with _ | ⟨z, zs⟩
              · rfl
              · exfalso
                have h0 := congrArg List.length hq'
                simp at h0
          obtain ⟨hy1, hy2⟩ := hy
          subst hy1
          subst hy2
          subst hp3
          rw [scanPass_append, h.1
            { st with
                depth := st.depth + 1
                seenRev := '{' :: st.seenRev
                curRev := '{' :: st.curRev } h1 h2 (by dsimp only; omega)]
          dsimp only
          rw [scanPass, scanStep_closeBrace_pos
            { st with
                depth := st.depth + 1
                seenRev := body.reverse ++ '{' :: st.seenRev
                curRev := body.reverse ++ '{' :: st.curRev } h1 h2 (by dsimp only; omega)]
          rfl

/-- Digit characters are plain. -/
theorem digitChar_plain : ∀ k : Nat, k < 10 → isPlainChar (Nat.digitChar k) := by
  decide

/-- Every character produced by the digit accumulator is plain (given a
plain accumulator). -/
theorem natCharsCore_plain :
    ∀ (fuel n : Nat) (acc : List Char), (∀ c ∈ acc, isPlainChar c) →
      ∀ c ∈ natCharsCore fuel n acc, isPlainChar c := by
  intro fuel
  induction fuel with
  | zero => intro n acc hacc; simpa [natCharsCore] using hacc
  | succ fuel ih =>
    intro n acc hacc c hc
    rw [natCharsCore] at hc
    by_cases hn : n < 10
    · rw [if_pos hn] at hc
      rcases List.mem_cons.mp hc with h | h
      · subst h
        exact digitChar_plain n hn
      · exact hacc c h
    · rw [if_neg hn] at hc
      refine ih (n / 10) (Nat.digitChar (n % 10) :: acc) ?_ c hc
      intro x hx
      rcases List.mem_cons.mp hx with h | h
      · subst h
        exact digitChar_plain (n % 10) (Nat.mod_lt n (by omega))
      · exact hacc x h

/-- The characters of a serialized integer are plain. -/
theorem intChars_plain (n : Int) : ∀ c ∈ intChars n, isPlainChar c := by
  intro c hc
  rw [intChars] at hc
  by_cases hneg : n < 0
  · rw [if_pos hneg] at hc
    rcases List.mem_cons.mp hc with h | h
    · subst h
      decide
    · exact natCharsCore_plain (n.natAbs + 1) n.natAbs [] (by simp) c h
  · rw [if_neg hneg] at hc
    exact natCharsCore_plain (n.natAbs + 1) n.natAbs [] (by simp) c hc

/-- One object field (`"name":value`) is scan-safe whenever the value's
serialization is. -/
theorem fieldEntry_scanSafe (name : List Char) (v : Json)
    (hv : ScanSafe (serializeJson v)) :
    ScanSafe ('"' :: escapeStr name ++ '"' :: ':' :: serializeJson v) := by
  have heq : ('"' :: escapeStr name) ++ '"' :: ':' :: serializeJson v
      = (('"' :: escapeStr name ++ ['"']) ++ (':' :: serializeJson v)) := by
    simp
  rw [heq]
  exact scanSafe_append (strLit_scanSafe name)
    (scanSafe_append (plainList_scanSafe [':'] (by decide)) hv)

mutual
/-- The serialization of any JSON value is scan-safe: from inside a frame
it neither closes the frame nor disturbs the scan flags. -/
theorem serializeJson_scanSafe : ∀ j : Json, ScanSafe (serializeJson j)
  | .jnull => by rw [serializeJson]; exact plainList_scanSafe _ (by decide)
  | .jbool true => by rw [serializeJson]; exact plainList_scanSafe _ (by decide)
  | .jbool false => by rw [serializeJson]; exact plainList_scanSafe _ (by decide)
  | .jnum n => by rw [serializeJson]; exact plainList_scanSafe _ (intChars_plain n)
  | .jstr s => by rw [serializeJson]; exact strLit_scanSafe s
  | .jarr es => by
      rw [serializeJson]
      exact scanSafe_append
        (scanSafe_append (plainList_scanSafe ['['] (by decide))
          (serializeJsonList_scanSafe es))
        (plainList_scanSafe [']'] (by decide))
  | .jobj fs => by
      rw [serializeJson]
      exact scanSafe_braces (serializeJsonFields_scanSafe fs)

/-- The serialization of a JSON array body is scan-safe. -/
theorem serializeJsonList_scanSafe : ∀ l : JsonList, ScanSafe (serializeJsonList l)
  | .nil => by rw [serializeJsonList]; exact scanSafe_nil
  | .cons x .nil => by rw [serializeJsonList]; exact serializeJson_scanSafe x
  | .cons x (.cons y tl) => by
      rw [serializeJsonList]
      exact scanSafe_append (serializeJson_scanSafe x)
        (scanSafe_append (plainList_scanSafe [','] (by decide))
          (serializeJsonList_scanSafe (.cons y tl)))

/-- The serialization of a JSON object body is scan-safe. -/
theorem serializeJsonFields_scanSafe :
    ∀ fs : JsonFields, ScanSafe (serializeJsonFields fs)
  | .nil => by rw [serializeJsonFields]; exact scanSafe_nil
  | .cons name v .nil => by
      rw [serializeJsonFields]
      exact fieldEntry_scanSafe name v (serializeJson_scanSafe v)
  | .cons name v (.cons n2 v2 tl) => by
      rw [serializeJsonFields]
      exact scanSafe_append (fieldEntry_scanSafe name v (serializeJson_scanSafe v))
        (scanSafe_append (plainList_scanSafe [','] (by decide))
          (serializeJsonFields_scanSafe (.cons n2 v2 tl)))
end

/-- Scanning the full serialization of a JSON object from a fresh buffer
recovers exactly that serialization as one frame, consuming everything. -/
theorem scanBuffer_serialized_obj (fs : JsonFields) :
    scanBuffer (serializeJson (.jobj fs))
      = ([serializeJson (.jobj fs)], []) := by
  have hbody := (serializeJsonFields_scanSafe fs).1
  rw [serializeJson]
  simp only [scanBuffer]
  rw [List.cons_append, scanPass, scanStep_openBrace_zero scanInit rfl rfl rfl]
  dsimp only
  rw [scanPass_append, hbody
    { scanInit with
        depth := scanInit.depth + 1
        seenRev := '{' :: scanInit.seenRev
        curRev := ['{'] } rfl rfl (by simp [scanInit])]
  dsimp only
  rw [scanPass, scanStep_closeBrace_one
    { scanInit with
        depth := scanInit.depth + 1
        seenRev := (serializeJsonFields fs).reverse ++ '{' :: scanInit.seenRev
        curRev := (serializeJsonFields fs).reverse ++ ['{'] } rfl rfl
    (by simp [scanInit])]
  dsimp only
  rw [scanPass]
  simp [scanInit]

/-- Scanning a proper prefix of the serialization of a JSON object recovers
no frame and leaves the whole prefix in the buffer. -/
theorem scanBuffer_serialized_obj_proper (fs : JsonFields) (a b : List Char)
    (hsplit : a ++ b = serializeJson (.jobj fs)) (hb : b ≠ []) :
    scanBuffer a = ([], a) := by
  have hsafe := serializeJsonFields_scanSafe fs
  rw [serializeJson] at hsplit
  have hframes : (scanPass scanInit a).2 = [] := by
    rcases a with _ | ⟨x, a2⟩
    · rfl
    · rw [List.cons_append] at hsplit
      have hx : x = '{' ∧ a2 ++ b = serializeJsonFields fs ++ ['}'] := by
        rw [List.cons_append] at hsplit
        constructor
        · simpa using congrArg List.head? hsplit
        · simpa using congrArg List.tail hsplit
      obtain ⟨hx1, hx2⟩ := hx
      subst hx1
      rw [scanPass, scanStep_openBrace_zero scanInit rfl rfl rfl]
      dsimp only
      rcases List.append_eq_append_iff.mp hx2 with ⟨p2, hbody, _⟩ | ⟨q2, ha2, hq⟩
      · rw [hsafe.2
          { scanInit with
              depth := scanInit.depth + 1
              seenRev := '{' :: scanInit.seenRev
              curRev := ['{'] } rfl rfl (by simp [scanInit])
          a2 p2 hbody.symm]
        rfl
      · rcases q2 with _ | ⟨y, q3⟩
        · simp only [List.append_nil] at ha2
          subst ha2
          rw [hsafe.1
            { scanInit with
                depth := scanInit.depth + 1
                seenRev := '{' :: scanInit.seenRev
                curRev := ['{'] } rfl rfl (by simp [scanInit])]
          rfl
        · exfalso
          have hy : q3 ++ b = [] := by simpa using congrArg List.tail hq
          exact hb (List.append_eq_nil.mp hy).2
  simp only [scanBuffer]
  rw [hframes, scanPass_noframes_seen a scanInit hframes]
  simp [scanInit]

/-- **C3.** Chunk-boundary independence of the incremental frame parser:
for any serialized JSON object and *any* split of its serialization into
two successive reads, the parser recovers exactly the full serialization
as a single frame with an empty buffer — the same result as when the
serialization arrives in one read.  Braces inside quoted string values
(e.g. `{"text":"a { b } c"}`) are shielded by the in-string flag and do
not disturb the count. -/
theorem frameParser_chunk_boundary_independence (fs : JsonFields)
    (a b : List Char) (hsplit : a ++ b = serializeJson (.jobj fs))
    (hb : b ≠ []) :
    processChunks [a, b] = ([serializeJson (.jobj fs)], [])
      ∧ processChunks [serializeJson (.jobj fs)]
        = ([serializeJson (.jobj fs)], []) := by
  have h1 := scanBuffer_serialized_obj fs
  have h2 := scanBuffer_serialized_obj_proper fs a b hsplit hb
  constructor
  · simp only [processChunks, List.foldl_cons, List.foldl_nil, List.nil_append]
    rw [h2]
    dsimp only
    rw [hsplit, h1]
    simp
  · simp only [processChunks, List.foldl_cons, List.foldl_nil, List.nil_append]
    rw [h1]

/-- The example object of the spec, `{"text":"a { b } c"}`. -/
def c3Fields : JsonFields :=
  .cons "text".toList (.jstr "a \x7b b \x7d c".toList) .nil

/-- Witness for C3: the spec's example frame `{"text":"a { b } c"}`, split
right after the inner `{`, is recovered as exactly one frame, identical to
the single-read result. -/
theorem frameParser_chunk_boundary_independence_witness :
    processChunks ["\x7b\"text\":\"a \x7b".toList, " b \x7d c\"\x7d".toList]
        = ([serializeJson (.jobj c3Fields)], [])
      ∧ processChunks [serializeJson (.jobj c3Fields)]
        = ([serializeJson (.jobj c3Fields)], []) :=
  frameParser_chunk_boundary_independence c3Fields
    "\x7b\"text\":\"a \x7b".toList " b \x7d c\"\x7d".toList (by decide) (by decide)

/-- **C7.** Buffer invariant of the incremental frame parser: after every
scan pass the remaining buffer contains no complete frame — rescanning it
recovers nothing and leaves it unchanged — and on well-formed input the
buffer is exactly the incomplete trailing part of the next object: after
reading a proper prefix of a serialized object the buffer holds precisely
that prefix, and it is empty once the object's final byte has arrived. -/
theorem frameParser_buffer_invariant :
    (∀ chunks : List (List Char),
      scanBuffer (processChunks chunks).2 = ([], (processChunks chunks).2))
    ∧ (∀ (fs : JsonFields) (a b : List Char),
        a ++ b = serializeJson (.jobj fs) → b ≠ [] →
        (processChunks [a]).2 = a ∧ (processChunks [a, b]).2 = []) := by
  refine ⟨processChunks_leftover_stable, fun fs a b hsplit hb => ⟨?_, ?_⟩⟩
  · simp only [processChunks, List.foldl_cons, List.foldl_nil, List.nil_append]
    rw [scanBuffer_serialized_obj_proper fs a b hsplit hb]
  · simp only [processChunks, List.foldl_cons, List.foldl_nil, List.nil_append]
    rw [scanBuffer_serialized_obj_proper fs a b hsplit hb]
    dsimp only
    rw [hsplit, scanBuffer_serialized_obj fs]

/-- Witness for C7: the spec's example frame, split after the inner `{`:
the buffer after the first read is the prefix itself, and it is empty after
the second. -/
theorem frameParser_buffer_invariant_witness :
    (processChunks ["\x7b\"text\":\"a \x7b".toList]).2 = "\x7b\"text\":\"a \x7b".toList
      ∧ (processChunks ["\x7b\"text\":\"a \x7b".toList, " b \x7d c\"\x7d".toList]).2 = [] :=
  frameParser_buffer_invariant.2 c3Fields
    "\x7b\"text\":\"a \x7b".toList " b \x7d c\"\x7d".toList (by decide) (by decide)
